import Mathlib

/-!
Shallow embedding of the skyr / network URL core.

* `skyr.utf8` embeds `src/unicode_impl.hpp` (the checked UTF-8 codec).
* `network.whatwg` embeds `src/whatwg/url.cpp` (query iterator, normalize, compare).

Conventions of the embedding
* an octet / code unit / code point is a `Nat`; the casts of the source
  (`mask8`, `static_cast<char16_t>`, `static_cast<uint8_t>`) are explicit masks;
* an input iterator is an index into a `List Nat` buffer, `*it` is `deref buf it`;
* a function taking its cursor by reference (`OctetIterator &it`) returns the
  updated cursor next to its result, also when the result is an error;
* an output iterator is an index into an output memory `List Nat`; `*(result++) = v`
  is `store mem result v` followed by `result + 1`;
* a `while` loop whose trip count is not structural carries a fuel argument and
  returns `none` when the fuel runs out.
-/

namespace skyr
namespace utf8

/-- The three error kinds of `skyr::unicode_errc` used by the codec. -/
inductive unicode_errc where
  | overflow
  | illegal_byte_sequence
  | invalid_code_point
  deriving DecidableEq, Repr

/-- The result type `expected<T, unicode_errc>`. -/
inductive expected (α : Type) where
  | value (v : α)
  | unexpected (e : unicode_errc)
  deriving DecidableEq, Repr

/-- Reading through an input iterator: `*it`. -/
def deref (buf : List Nat) (it : Nat) : Nat := buf.getD it 0

/-- Writing through an output iterator: `*result = v` on the output memory. -/
def store (mem : List Nat) (result : Nat) (v : Nat) : List Nat :=
  (mem ++ List.replicate (result + 1 - mem.length) 0).set result v

namespace details
namespace constants

def lead_surrogate_min : Nat := 0xd800
def lead_surrogate_max : Nat := 0xdbff
def trail_surrogate_min : Nat := 0xdc00
def trail_surrogate_max : Nat := 0xdfff
/-- The `char16_t` constant `lead_surrogate_min - (0x10000 >> 10)`. -/
def lead_offset : Nat := (lead_surrogate_min - (0x10000 >>> 10)) % 2 ^ 16
/-- The `char32_t` constant `0x10000u - (lead_surrogate_min << 10) - trail_surrogate_min`,
computed modulo `2 ^ 32` as unsigned arithmetic does. -/
def surrogate_offset : Nat :=
  (0x10000 + 2 ^ 32 - (lead_surrogate_min <<< 10) % 2 ^ 32 + 2 ^ 32 - trail_surrogate_min) % 2 ^ 32
def code_point_max : Nat := 0x0010ffff

end constants

def mask8 (octet : Nat) : Nat := 0xff &&& octet

def mask16 (octet : Nat) : Nat := 0xffff &&& octet

def is_trail (octet : Nat) : Bool := (mask8 octet >>> 6) == 0x2

/-- The argument is a `char16_t`; callers holding a wider value truncate it first. -/
def is_lead_surrogate (code_point : Nat) : Bool :=
  decide (code_point ≥ constants.lead_surrogate_min) &&
  decide (code_point ≤ constants.lead_surrogate_max)

def is_trail_surrogate (code_point : Nat) : Bool :=
  decide (code_point ≥ constants.trail_surrogate_min) &&
  decide (code_point ≤ constants.trail_surrogate_max)

def is_surrogate (code_point : Nat) : Bool :=
  decide (code_point ≥ constants.lead_surrogate_min) &&
  decide (code_point ≤ constants.trail_surrogate_max)

/-- The source passes `static_cast<char16_t>(code_point)` to `is_surrogate`:
the value is reduced modulo `2 ^ 16` before the range test. -/
def is_code_point_valid (code_point : Nat) : Bool :=
  decide (code_point ≤ constants.code_point_max) &&
  !is_surrogate (code_point % 2 ^ 16)

def sequence_length (buf : List Nat) (lead_it : Nat) : Nat :=
  let lead := mask8 (deref buf lead_it)
  if lead < 0x80 then 1
  else if lead >>> 5 = 0x6 then 2
  else if lead >>> 4 = 0xe then 3
  else if lead >>> 3 = 0x1e then 4
  else 0

/-- The source starts from `result = false` and combines with `&=`. -/
def is_overlong_sequence (code_point : Nat) (length : Nat) : Bool :=
  let result := false
  let result := result && (decide (code_point < 0x80) && decide (length ≠ 1))
  let result := result && (decide (code_point < 0x800) && decide (length ≠ 2))
  let result := result && (decide (code_point < 0x10000) && decide (length ≠ 3))
  result

/-- Helper for `get_sequence_x`: `++it`, then the end test, then the trail test.
The second component is the cursor as the call leaves it. -/
def increment (buf : List Nat) (it last : Nat) : expected Nat × Nat :=
  let it := it + 1
  if it = last then (.unexpected .overflow, it)
  else if !is_trail (deref buf it) then (.unexpected .illegal_byte_sequence, it)
  else (.value it, it)

def get_sequence_1 (buf : List Nat) (it last : Nat) : expected Nat × Nat :=
  if it = last then (.unexpected .overflow, it)
  else (.value (mask8 (deref buf it)), it)

def get_sequence_2 (buf : List Nat) (it last : Nat) : expected Nat × Nat :=
  if it = last then (.unexpected .overflow, it)
  else
    let code_point := mask8 (deref buf it)
    match increment buf it last with
    | (.unexpected e, it) => (.unexpected e, it)
    | (.value _, it) =>
      (.value (((code_point <<< 6) &&& 0x7ff) + (deref buf it &&& 0x3f)), it)

def get_sequence_3 (buf : List Nat) (it last : Nat) : expected Nat × Nat :=
  if it = last then (.unexpected .overflow, it)
  else
    let code_point := mask8 (deref buf it)
    match increment buf it last with
    | (.unexpected e, it) => (.unexpected e, it)
    | (.value _, it) =>
      let code_point := ((code_point <<< 12) &&& 0xffff) + ((mask8 (deref buf it) <<< 6) &&& 0xfff)
      match increment buf it last with
      | (.unexpected e, it) => (.unexpected e, it)
      | (.value _, it) => (.value (code_point + (deref buf it &&& 0x3f)), it)

def get_sequence_4 (buf : List Nat) (it last : Nat) : expected Nat × Nat :=
  if it = last then (.unexpected .overflow, it)
  else
    let code_point := mask8 (deref buf it)
    match increment buf it last with
    | (.unexpected e, it) => (.unexpected e, it)
    | (.value _, it) =>
      let code_point :=
        ((code_point <<< 18) &&& 0x1fffff) + ((mask8 (deref buf it) <<< 12) &&& 0x3ffff)
      match increment buf it last with
      | (.unexpected e, it) => (.unexpected e, it)
      | (.value _, it) =>
        let code_point := code_point + ((mask8 (deref buf it) <<< 6) &&& 0xfff)
        match increment buf it last with
        | (.unexpected e, it) => (.unexpected e, it)
        | (.value _, it) => (.value (code_point + (deref buf it &&& 0x3f)), it)

/-- The decoder behind `next`: result and the cursor as the call leaves it. -/
def validate_next (buf : List Nat) (it last : Nat) : expected Nat × Nat :=
  if it = last then (.unexpected .overflow, it)
  else
    let length := sequence_length buf it
    let r : expected Nat × Nat :=
      if length = 1 then get_sequence_1 buf it last
      else if length = 2 then get_sequence_2 buf it last
      else if length = 3 then get_sequence_3 buf it last
      else if length = 4 then get_sequence_4 buf it last
      else (.unexpected .overflow, it)
    match r with
    | (.value code_point, it) =>
      if is_code_point_valid code_point then
        if is_overlong_sequence code_point length then
          (.unexpected .illegal_byte_sequence, it)
        else (.value code_point, it + 1)
      else (.unexpected .invalid_code_point, it)
    | (.unexpected e, it) => (.unexpected e, it)

end details

/-- The loop of `find_invalid`; `none` when the fuel runs out. -/
def find_invalid_loop (buf : List Nat) (last : Nat) : Nat → Nat → Option Nat
  | 0, _ => none
  | fuel + 1, it =>
    if it = last then some it
    else
      match details.validate_next buf it last with
      | (.unexpected _, it) => some it
      | (.value _, it) => find_invalid_loop buf last fuel it

def find_invalid (buf : List Nat) (first last : Nat) : Option Nat :=
  find_invalid_loop buf last (last - first + 1) first

def is_valid (buf : List Nat) (first last : Nat) : Option Bool :=
  (find_invalid buf first last).map (fun it => decide (it = last))

/-- The encoder `append(code_point, result)`: the returned cursor (or the error)
and the output memory after the call. `code_point` is a `char32_t`. -/
def append (code_point : Nat) (mem : List Nat) (result : Nat) : expected Nat × List Nat :=
  if !details.is_code_point_valid code_point then (.unexpected .invalid_code_point, mem)
  else if code_point < 0x80 then
    (.value (result + 1), store mem result (code_point % 256))
  else if code_point < 0x800 then
    let mem := store mem result (((code_point >>> 6) ||| 0xc0) % 256)
    let mem := store mem (result + 1) (((code_point &&& 0x3f) ||| 0x80) % 256)
    (.value (result + 2), mem)
  else if code_point < 0x10000 then
    let mem := store mem result (((code_point >>> 12) ||| 0xe0) % 256)
    let mem := store mem (result + 1) ((((code_point >>> 6) &&& 0x3f) ||| 0x80) % 256)
    let mem := store mem (result + 2) (((code_point &&& 0x3f) ||| 0x80) % 256)
    (.value (result + 3), mem)
  else
    let mem := store mem result (((code_point >>> 18) ||| 0xf0) % 256)
    let mem := store mem (result + 1) ((((code_point >>> 12) &&& 0x3f) ||| 0x80) % 256)
    let mem := store mem (result + 2) ((((code_point >>> 6) &&& 0x3f) ||| 0x80) % 256)
    let mem := store mem (result + 3) (((code_point &&& 0x3f) ||| 0x80) % 256)
    (.value (result + 4), mem)

def next (buf : List Nat) (it last : Nat) : expected Nat × Nat :=
  details.validate_next buf it last

/-- The cursor is passed by value: only the result comes back. -/
def peek_next (buf : List Nat) (it last : Nat) : expected Nat :=
  (next buf it last).1

/-- The loop of `utf32to8` over the input range `[first, last)`, given as the list
of its code units. -/
def utf32to8 : List Nat → List Nat → Nat → expected Nat × List Nat
  | [], mem, result => (.value result, mem)
  | cp :: rest, mem, result =>
    match append cp mem result with
    | (.unexpected e, mem) => (.unexpected e, mem)
    | (.value result_it, mem) => utf32to8 rest mem result_it

/-- The loop of `utf8to32`; `none` when the fuel runs out. -/
def utf8to32_loop (buf : List Nat) (last : Nat) :
    Nat → Nat → List Nat → Nat → Option (expected Nat × List Nat)
  | 0, _, _, _ => none
  | fuel + 1, it, mem, result =>
    if it = last then some (.value result, mem)
    else
      match next buf it last with
      | (.unexpected e, _) => some (.unexpected e, mem)
      | (.value cp, it) => utf8to32_loop buf last fuel it (store mem result cp) (result + 1)

def utf8to32 (buf : List Nat) (first last : Nat) (mem : List Nat) (result : Nat) :
    Option (expected Nat × List Nat) :=
  utf8to32_loop buf last (last - first + 1) first mem result

/-- The `while` loop of `prior`, entered after the first `--it`: the error of an early
return (if any) and the cursor as the loop leaves it; `none` when the fuel runs out. -/
def prior_loop (buf : List Nat) (first : Nat) : Nat → Nat → Option (Option unicode_errc × Nat)
  | 0, _ => none
  | fuel + 1, it =>
    if details.is_trail (deref buf it) then
      if it = first then some (some .invalid_code_point, it)
      else prior_loop buf first fuel (it - 1)
    else some (none, it)

/-- The function `prior(it, first)`: its result and the cursor as the call leaves it. -/
def prior (buf : List Nat) (it first : Nat) : Option (expected Nat × Nat) :=
  if it = first then some (.unexpected .overflow, it)
  else
    let last := it
    let it := it - 1
    match prior_loop buf first (last - first + 1) it with
    | none => none
    | some (some e, it) => some (.unexpected e, it)
    | some (none, it) => some (peek_next buf it last, it)

/-- The value `(code_point << 10) + trail_surrogate + surrogate_offset` that `utf16to8`
computes for a surrogate pair, in 32-bit unsigned arithmetic (the sum is written with
the constant first). -/
def combine_surrogates (code_point trail_surrogate : Nat) : Nat :=
  (details.constants.surrogate_offset + ((code_point <<< 10) + trail_surrogate)) % 2 ^ 32

/-- The implicit conversion of a 32-bit value to the `char16_t` parameter of
`is_lead_surrogate` and `is_trail_surrogate`. -/
def to_char16 (code_point : Nat) : Nat := code_point % 2 ^ 16

/-- The loop of `utf16to8` over the input range `[first, last)`, given as the list of its
code units. `append` receives `result` by value and the loop never assigns its return
value back, so every call writes from the same cursor and that cursor is returned. -/
def utf16to8 : List Nat → List Nat → Nat → expected Nat × List Nat
  | [], mem, result => (.value result, mem)
  | u :: rest, mem, result =>
    let code_point := details.mask16 u
    if details.is_lead_surrogate (to_char16 code_point) then
      match rest with
      | t :: rest =>
        let trail_surrogate := details.mask16 t
        if details.is_trail_surrogate trail_surrogate then
          match append (combine_surrogates code_point trail_surrogate) mem result with
          | (.unexpected e, mem) => (.unexpected e, mem)
          | (.value _, mem) => utf16to8 rest mem result
        else (.unexpected .invalid_code_point, mem)
      | [] => (.unexpected .invalid_code_point, mem)
    else if details.is_trail_surrogate (to_char16 code_point) then
      (.unexpected .invalid_code_point, mem)
    else
      match append code_point mem result with
      | (.unexpected e, mem) => (.unexpected e, mem)
      | (.value _, mem) => utf16to8 rest mem result

/-- The loop of `utf8to16`; `none` when the fuel runs out. -/
def utf8to16_loop (buf : List Nat) (last : Nat) :
    Nat → Nat → List Nat → Nat → Option (expected Nat × List Nat)
  | 0, _, _, _ => none
  | fuel + 1, it, mem, result =>
    if it = last then some (.value result, mem)
    else
      match next buf it last with
      | (.unexpected e, _) => some (.unexpected e, mem)
      | (.value code_point, it) =>
        if code_point > 0xffff then
          let mem := store mem result (((code_point >>> 10) + details.constants.lead_offset) % 2 ^ 16)
          let mem := store mem (result + 1)
            (((code_point &&& 0x3ff) + details.constants.trail_surrogate_min) % 2 ^ 16)
          utf8to16_loop buf last fuel it mem (result + 2)
        else
          utf8to16_loop buf last fuel it (store mem result (code_point % 2 ^ 16)) (result + 1)

def utf8to16 (buf : List Nat) (first last : Nat) (mem : List Nat) (result : Nat) :
    Option (expected Nat × List Nat) :=
  utf8to16_loop buf last (last - first + 1) first mem result

/-- The loop of `distance`; `none` when the fuel runs out. -/
def distance_loop (buf : List Nat) (last : Nat) : Nat → Nat → Nat → Option (expected Nat)
  | 0, _, _ => none
  | fuel + 1, it, dist =>
    if it = last then some (.value dist)
    else
      match next buf it last with
      | (.unexpected e, _) => some (.unexpected e)
      | (.value _, it) => distance_loop buf last fuel it (dist + 1)

def distance (buf : List Nat) (first last : Nat) : Option (expected Nat) :=
  distance_loop buf last (last - first + 1) first 0

/-- Following the claim's words: the UTF-16 units of one code point. A code point of at
most 0xFFFF is one unit outside 0xD800..0xDFFF; a larger one is two units, the first in
0xD800..0xDBFF and the second in 0xDC00..0xDFFF, from which the code point is recovered
as `0x10000 + ((lead - 0xD800) << 10) + (trail - 0xDC00)`. -/
def spec_utf16_encodes (code_point : Nat) (units : List Nat) : Prop :=
  (code_point ≤ 0xFFFF ∧ units = [code_point] ∧
    ¬ (0xD800 ≤ code_point ∧ code_point ≤ 0xDFFF)) ∨
  (0xFFFF < code_point ∧
    ∃ lead trail, units = [lead, trail] ∧
      0xD800 ≤ lead ∧ lead ≤ 0xDBFF ∧ 0xDC00 ≤ trail ∧ trail ≤ 0xDFFF ∧
      code_point = 0x10000 + ((lead - 0xD800) <<< 10) + (trail - 0xDC00))

/-- Following the claim's words: position `i` of a UTF-16 input holds a trail surrogate
(0xDC00..0xDFFF) not immediately preceded by a lead surrogate, or a lead surrogate
(0xD800..0xDBFF) that is the last unit or is followed by a unit that is not a trail
surrogate. -/
def spec_ill_formed_at (units : List Nat) (i : Nat) : Bool :=
  (decide (0xDC00 ≤ units.getD i 0 ∧ units.getD i 0 ≤ 0xDFFF) &&
    (decide (i = 0) ||
      !decide (0xD800 ≤ units.getD (i - 1) 0 ∧ units.getD (i - 1) 0 ≤ 0xDBFF))) ||
  (decide (0xD800 ≤ units.getD i 0 ∧ units.getD i 0 ≤ 0xDBFF) &&
    (decide (i + 1 = units.length) ||
      !decide (0xDC00 ≤ units.getD (i + 1) 0 ∧ units.getD (i + 1) 0 ≤ 0xDFFF)))

end utf8
end skyr

namespace network

/-- The bytes of an ASCII string literal, used to write buffers down. -/
def ascii (s : String) : List Nat := s.toList.map Char.toNat

/-- The type `std::string_view`: a start address (`none` for the null view of
`string_view()`) and a size. Addresses are offsets into the url buffer. -/
structure string_view where
  data : Option Nat
  size : Nat
  deriving DecidableEq, Repr

/-- The default-constructed view `string_view()`. -/
def string_view.null : string_view := ⟨none, 0⟩

/-- The characters a view denotes in the buffer it points into. -/
def string_view.text (buf : List Nat) (v : string_view) : List Nat :=
  match v.data with
  | none => []
  | some p => (buf.drop p).take v.size

def string_view.is_empty (v : string_view) : Bool := v.size == 0

namespace detail

/-- Modelled from the spec: `uri_part` (declared in detail/uri_parts.hpp, which is not
among the sources) is a Component Span, the half-open range `[first, last)` of
positions in the buffer. -/
structure uri_part where
  first : Nat
  last : Nat
  deriving DecidableEq, Repr

def uri_part.empty (p : uri_part) : Bool := p.first == p.last

/-- The member `to_string()` of a part: the characters of its range. -/
def uri_part.to_string (buf : List Nat) (p : uri_part) : List Nat :=
  (buf.drop p.first).take (p.last - p.first)

/-- Modelled from the spec: `uri_parts` (declared in detail/uri_parts.hpp) is the
Component Set, seven optional spans over the same buffer. -/
structure uri_parts where
  scheme : Option uri_part := none
  user_info : Option uri_part := none
  host : Option uri_part := none
  port : Option uri_part := none
  path : Option uri_part := none
  query : Option uri_part := none
  fragment : Option uri_part := none
  deriving DecidableEq, Repr

/-- The functions of `detail/` that url.cpp calls and whose definitions are not among
the sources; url.cpp is embedded over an arbitrary choice of them.
* `trim_copy s` is the trimmed copy of `s`;
* `parse view parts` is `parse(it, last, parts)`: the validity flag and `parts` as the
  call leaves it;
* `advance_parts view parts ref` is `advance_parts(view, parts, ref)`: `parts` as the
  call leaves it;
* `percent_encoded_to_upper s` is `s` after `for_each(s, percent_encoded_to_upper())`;
* `decode_encoded_unreserved_chars s` is the range `[begin, r)` of `s`, where `r` is
  the iterator the call returns (the caller erases `[r, end)`);
* `normalize_path_segments path` is the string the call returns. -/
structure services where
  trim_copy : List Nat → List Nat
  parse : List Nat → uri_parts → Bool × uri_parts
  advance_parts : List Nat → uri_parts → uri_parts → uri_parts
  percent_encoded_to_upper : List Nat → List Nat
  decode_encoded_unreserved_chars : List Nat → List Nat
  normalize_path_segments : List Nat → List Nat

end detail

namespace whatwg

open detail

/-- The algorithm `std::find_if` over the positions `first, first + 1, ...`, `n` of them. -/
def find_if_n (buf : List Nat) (pred : Nat → Bool) : Nat → Nat → Nat
  | 0, first => first
  | n + 1, first => if pred (buf.getD first 0) then first else find_if_n buf pred n (first + 1)

/-- The algorithm `std::find_if(first, last, pred)` on positions of `buf`. -/
def find_if (buf : List Nat) (pred : Nat → Bool) (first last : Nat) : Nat :=
  find_if_n buf pred (last - first) first

/-- The lambda `c == '&' || c == ';'`. -/
def is_pair_separator (c : Nat) : Bool := c == '&'.toNat || c == ';'.toNat

/-- The lambda `c == '='`. -/
def is_equals_sign (c : Nat) : Bool := c == '='.toNat

/-- `std::transform(first, last, first, f)` on the range `[first, last)` of a string. -/
def transform_range (f : Nat → Nat) (str : List Nat) (first last : Nat) : List Nat :=
  str.take first ++ ((str.drop first).take (last - first)).map f ++ str.drop last

/-- `std::tolower(ch, std::locale())` in the default ("C") locale. -/
def tolower (ch : Nat) : Nat := if 'A'.toNat ≤ ch ∧ ch ≤ 'Z'.toNat then ch + 32 else ch

/-- The positions of a part inside `str`, as `std::string` iterators. -/
def mutable_part (_str : List Nat) (part : uri_part) : Nat × Nat := (part.first, part.last)

def to_string_view (_url : List Nat) (part : uri_part) : string_view :=
  if !part.empty then ⟨some part.first, part.last - part.first⟩ else string_view.null

/-- A `url::query_iterator`. `addr` is the address of the iterator object itself,
which `operator==` compares (it takes the address of the member `kvp_.first`). -/
structure query_iterator where
  addr : Nat
  query_ : Option uri_part
  kvp_ : string_view × string_view
  deriving DecidableEq, Repr

namespace query_iterator

/-- The default constructor, for an object at address `addr`. -/
def default (addr : Nat) : query_iterator :=
  { addr := addr, query_ := none, kvp_ := (string_view.null, string_view.null) }

/-- The body of `assign_kvp`; `none` when `*query_` is read while `query_` is empty. -/
def assign_kvp (buf : List Nat) (self : query_iterator) : Option query_iterator :=
  match self.query_ with
  | none => none
  | some q =>
    let first := q.first
    let last := q.last
    let sep_it := find_if buf is_pair_separator first last
    let eq_it := find_if buf is_equals_sign first sep_it
    let key : string_view := ⟨some first, eq_it - first⟩
    let eq_it := if eq_it ≠ sep_it then eq_it + 1 else eq_it
    let value : string_view := ⟨some eq_it, sep_it - eq_it⟩
    some { self with kvp_ := (key, value) }

/-- The body of `advance_to_next_kvp`; `none` when `*query_` is read while empty. -/
def advance_to_next_kvp (buf : List Nat) (self : query_iterator) : Option query_iterator :=
  match self.query_ with
  | none => none
  | some q =>
    let first := q.first
    let last := q.last
    let sep_it := find_if buf is_pair_separator first last
    let sep_it := if sep_it ≠ last then sep_it + 1 else sep_it
    some { self with query_ := some ⟨sep_it, last⟩ }

/-- The constructor from an optional part, for an object at address `addr`. -/
def from_part (buf : List Nat) (addr : Nat) (query : Option uri_part) : Option query_iterator :=
  let self : query_iterator :=
    { addr := addr, query_ := query, kvp_ := (string_view.null, string_view.null) }
  match self.query_ with
  | some q => if q.empty then some { self with query_ := none } else assign_kvp buf self
  | none => assign_kvp buf self

/-- The body of `increment`; `none` when `assert(query_)` fails. -/
def increment (buf : List Nat) (self : query_iterator) : Option query_iterator :=
  match self.query_ with
  | none => none
  | some q =>
    let r : Option query_iterator :=
      if !q.empty then (advance_to_next_kvp buf self).bind (assign_kvp buf) else some self
    r.bind fun self =>
      match self.query_ with
      | none => none
      | some q => if q.empty then some { self with query_ := none } else some self

/-- The member `operator==`. -/
def eq (self other : query_iterator) : Bool :=
  match self.query_, other.query_ with
  | none, none => true
  | some _, some _ => self.addr == other.addr
  | _, _ => false

/-- The copy constructor, for a new object at address `addr`. -/
def copy (addr : Nat) (other : query_iterator) : query_iterator :=
  { addr := addr, query_ := other.query_, kvp_ := other.kvp_ }

end query_iterator

/-- A `url` value: the buffer `url_` and the Component Set `url_parts_`; the view
`url_view_` is the whole of `url_`. -/
structure url where
  url_ : List Nat
  url_parts_ : uri_parts
  deriving DecidableEq, Repr

namespace url

def has_query (self : url) : Bool := self.url_parts_.query.isSome

/-- The iterator `query_begin()` returns, constructed at address `addr`. -/
def query_begin (self : url) (addr : Nat) : Option query_iterator :=
  if self.has_query then query_iterator.from_part self.url_ addr self.url_parts_.query
  else some (query_iterator.default addr)

def query_end (_self : url) (addr : Nat) : query_iterator := query_iterator.default addr

/-- The client loop `for (it = query_begin(); !(it == query_end()); ++it)` collecting the
text of `*it`; the end iterator is a temporary at address `end_addr`. `none` when the
fuel runs out or an iterator operation is undefined. -/
def query_pairs_loop (self : url) (end_addr : Nat) :
    Nat → query_iterator → Option (List (List Nat × List Nat))
  | 0, _ => none
  | fuel + 1, it =>
    if it.eq (self.query_end end_addr) then some []
    else
      match it.increment self.url_ with
      | none => none
      | some it' =>
        (query_pairs_loop self end_addr fuel it').map fun rest =>
          (it.kvp_.1.text self.url_, it.kvp_.2.text self.url_) :: rest

def query_pairs (self : url) (addr end_addr : Nat) : Option (List (List Nat × List Nat)) :=
  (self.query_begin addr).bind (query_pairs_loop self end_addr (self.url_.length + 2))

def empty (self : url) : Bool := self.url_.isEmpty

/-- The member function `initialize(url)` (the name is reserved here, hence `init`) run
on a default-constructed value: the validity flag and the value as the call leaves it. -/
def init (env : services) (str : List Nat) : Bool × url :=
  let url_ := env.trim_copy str
  if !url_.isEmpty then
    let r := env.parse url_ {}
    (r.1, { url_ := url_, url_parts_ := r.2 })
  else (true, { url_ := url_, url_parts_ := {} })

/-- Modelled from the spec: the constructor of a url from a string (defined in
url.hpp, which is not among the sources) runs `init` and stores the buffer
verbatim whatever validity the parser reports. -/
def from_string (env : services) (str : List Nat) : url := (init env str).2

/-- The body of `normalize`: the flag its `assert` tests, and the value it returns
when that assertion holds. -/
def normalize_body (env : services) (self : url) : Bool × url :=
  let normalized := self.url_
  let parts := env.advance_parts normalized {} self.url_parts_
  let normalized :=
    match parts.scheme with
    | some p =>
      let r := mutable_part normalized p
      transform_range tolower normalized r.1 r.2
    | none => normalized
  let normalized :=
    match parts.host with
    | some p =>
      let r := mutable_part normalized p
      transform_range tolower normalized r.1 r.2
    | none => normalized
  let normalized := env.percent_encoded_to_upper normalized
  let normalized := env.decode_encoded_unreserved_chars normalized
  let parsed := env.parse normalized parts
  let is_valid := parsed.1
  let parts := parsed.2
  let normalized :=
    match parts.path with
    | some part =>
      let path :=
        env.normalize_path_segments ((to_string_view normalized part).text normalized)
      let query := parts.query.map (uri_part.to_string normalized)
      let fragment := parts.fragment.map (uri_part.to_string normalized)
      let path_range := mutable_part normalized part
      let normalized := normalized.take path_range.1
      let normalized := normalized ++ path
      let normalized :=
        match query with
        | some q => normalized ++ ascii "?" ++ q
        | none => normalized
      match fragment with
      | some f => normalized ++ ascii "#" ++ f
      | none => normalized
    | none => normalized
  (is_valid, from_string env normalized)

/-- The member `normalize()`; `none` when `assert(is_valid)` fails. -/
def normalize (env : services) (self : url) : Option url :=
  let r := normalize_body env self
  if r.1 then some r.2 else none

/-- The member `std::string::compare`: the characters are compared as unsigned
bytes, then the lengths; only the sign of the result is specified. -/
def string_compare : List Nat → List Nat → Int
  | [], [] => 0
  | [], _ :: _ => -1
  | _ :: _, [] => 1
  | a :: as, b :: bs => if a < b then -1 else if b < a then 1 else string_compare as bs

/-- The member `compare(other)`; `none` when a `normalize()` it calls aborts. -/
def compare (env : services) (self other : url) : Option Int :=
  if self.empty && other.empty then some 0
  else if self.empty then some (-1)
  else if other.empty then some 1
  else
    match normalize env self, normalize env other with
    | some a, some b => some (string_compare a.url_ b.url_)
    | _, _ => none

/-- The free `operator==(const url &, const url &)`. -/
def op_eq (env : services) (lhs rhs : url) : Option Bool :=
  (compare env lhs rhs).map fun c => decide (c = 0)

/-- The free `operator<(const url &, const url &)`. -/
def op_lt (env : services) (lhs rhs : url) : Option Bool :=
  (compare env lhs rhs).map fun c => decide (c < 0)

def has_scheme (self : url) : Bool := self.url_parts_.scheme.isSome

def has_user_info (self : url) : Bool := self.url_parts_.user_info.isSome

def user_info (self : url) : string_view :=
  match self.url_parts_.user_info with
  | some part => to_string_view self.url_ part
  | none => string_view.null

def has_host (self : url) : Bool := self.url_parts_.host.isSome

def host (self : url) : string_view :=
  match self.url_parts_.host with
  | some part => to_string_view self.url_ part
  | none => string_view.null

def has_port (self : url) : Bool := self.url_parts_.port.isSome

def port (self : url) : string_view :=
  match self.url_parts_.port with
  | some part => to_string_view self.url_ part
  | none => string_view.null

def scheme (self : url) : string_view :=
  match self.url_parts_.scheme with
  | some part => to_string_view self.url_ part
  | none => string_view.null

def has_path (self : url) : Bool := self.url_parts_.path.isSome

def path (self : url) : string_view :=
  match self.url_parts_.path with
  | some part => to_string_view self.url_ part
  | none => string_view.null

def query (self : url) : string_view :=
  match self.url_parts_.query with
  | some part => to_string_view self.url_ part
  | none => string_view.null

def has_fragment (self : url) : Bool := self.url_parts_.fragment.isSome

def fragment (self : url) : string_view :=
  match self.url_parts_.fragment with
  | some part => to_string_view self.url_ part
  | none => string_view.null

/-- The copy constructor `url(const url &other)`: the buffer is copied, the Component
Set starts default-constructed and `advance_parts` fills it from the other's. -/
def copy (env : services) (other : url) : url :=
  let url_ := other.url_
  { url_ := url_, url_parts_ := env.advance_parts url_ {} other.url_parts_ }

def has_authority (self : url) : Bool := self.has_host

/-- The iterator `std::begin(view)`, a character pointer (`none` is the null pointer). -/
def view_begin (v : string_view) : Option Nat := v.data

/-- The iterator `std::end(view)`. -/
def view_end (v : string_view) : Option Nat := v.data.map fun p => p + v.size

/-- The distance `std::distance(first, last)` between two character pointers. -/
def ptr_distance (first last : Option Nat) : Nat :=
  match first, last with
  | some a, some b => b - a
  | _, _ => 0

/-- The member `authority()`. -/
def authority (self : url) : string_view :=
  if !self.has_host then string_view.null
  else
    let host := self.host
    let user_info := if self.has_user_info then self.user_info else string_view.null
    let port := if self.has_port then self.port else string_view.null
    let first := view_begin host
    let last := view_end host
    let first :=
      if self.has_user_info && !user_info.is_empty then view_begin user_info
      else if host.is_empty && self.has_port && !port.is_empty then
        (view_begin port).map fun p => p - 1
      else first
    let last :=
      if host.is_empty then
        if self.has_port && !port.is_empty then view_end port
        else if self.has_user_info && !user_info.is_empty then
          (view_end user_info).map fun p => p + 1
        else last
      else if self.has_port then
        if port.is_empty then last.map fun p => p + 1
        else view_end port
      else last
    ⟨first, ptr_distance first last⟩

/-- The conversion of a `char` to a `bits`-wide unsigned character type, which the
range constructors of `std::u16string` and `std::u32string` apply to each element;
`char_signed` says whether `char` is a signed type on the platform. -/
def char_to_wide (char_signed : Bool) (bits : Nat) (c : Nat) : Nat :=
  if char_signed && decide (128 ≤ c) then 2 ^ bits - 256 + c else c

/-- The member `u16string()`: `std::u16string(begin(), end())`. -/
def u16string (char_signed : Bool) (self : url) : List Nat :=
  self.url_.map (char_to_wide char_signed 16)

/-- The member `u32string()`: `std::u32string(begin(), end())`. -/
def u32string (char_signed : Bool) (self : url) : List Nat :=
  self.url_.map (char_to_wide char_signed 32)

end url

/-- Modelled from the spec: `advance_parts` (detail/uri_advance_parts.hpp, not among the
sources) re-anchors the reference Component Set onto the new buffer at the same logical
offsets; with spans kept as offsets the result is the reference set. -/
def spec_advance_parts (_view : List Nat) (_parts ref : uri_parts) : uri_parts := ref

/-- Modelled from the spec: a byte the trimming primitive removes, an ASCII whitespace
or control character. -/
def spec_is_trimmed (c : Nat) : Bool := decide (c ≤ 0x20) || c == 0x7f

/-- Modelled from the spec: `trim_copy` (detail/algorithm.hpp, not among the sources)
removes leading and trailing ASCII whitespace and control characters. -/
def spec_trim_copy (str : List Nat) : List Nat :=
  ((str.dropWhile spec_is_trimmed).reverse.dropWhile spec_is_trimmed).reverse

/-- Modelled from the spec: a hex digit of a percent-encoded triplet. -/
def is_hex_digit (c : Nat) : Bool :=
  (decide ('0'.toNat ≤ c) && decide (c ≤ '9'.toNat)) ||
  (decide ('a'.toNat ≤ c) && decide (c ≤ 'f'.toNat)) ||
  (decide ('A'.toNat ≤ c) && decide (c ≤ 'F'.toNat))

/-- Modelled from the spec: the upper-case form of a hex digit. -/
def hex_to_upper (c : Nat) : Nat :=
  if 'a'.toNat ≤ c ∧ c ≤ 'f'.toNat then c - 32 else c

/-- Modelled from the spec: the value of a hex digit. -/
def hex_value (c : Nat) : Nat :=
  if '0'.toNat ≤ c ∧ c ≤ '9'.toNat then c - '0'.toNat
  else if 'a'.toNat ≤ c ∧ c ≤ 'f'.toNat then c - 'a'.toNat + 10
  else c - 'A'.toNat + 10

/-- Modelled from the spec: the unreserved ASCII set, letters, digits, `-`, `.`, `_`, `~`. -/
def spec_is_unreserved (c : Nat) : Bool :=
  (decide ('a'.toNat ≤ c) && decide (c ≤ 'z'.toNat)) ||
  (decide ('A'.toNat ≤ c) && decide (c ≤ 'Z'.toNat)) ||
  (decide ('0'.toNat ≤ c) && decide (c ≤ '9'.toNat)) ||
  c == '-'.toNat || c == '.'.toNat || c == '_'.toNat || c == '~'.toNat

/-- Modelled from the spec: whether the characters after a `%` start with two hex
digits, that is whether the `%` begins a percent-encoded triplet. -/
def starts_with_hex_pair : List Nat → Bool
  | a :: b :: _ => is_hex_digit a && is_hex_digit b
  | _ => false

/-- Modelled from the spec: the scan behind `spec_percent_encoded_to_upper`; the first
argument counts the hex digits of the current triplet still to be rewritten. -/
def spec_to_upper_scan : Nat → List Nat → List Nat
  | _, [] => []
  | k + 1, c :: cs => hex_to_upper c :: spec_to_upper_scan k cs
  | 0, c :: cs =>
    if c = '%'.toNat ∧ starts_with_hex_pair cs then c :: spec_to_upper_scan 2 cs
    else c :: spec_to_upper_scan 0 cs

/-- Modelled from the spec: `percent_encoded_to_upper` (detail/uri_normalize.hpp, not
among the sources) upper-cases the two hex digits of every percent-encoded triplet and
leaves everything else untouched. -/
def spec_percent_encoded_to_upper (str : List Nat) : List Nat := spec_to_upper_scan 0 str

/-- Modelled from the spec: the octet a percent-encoded triplet decodes to, given the
characters after its `%`. -/
def triplet_octet : List Nat → Nat
  | a :: b :: _ => 16 * hex_value a + hex_value b
  | _ => 0

/-- Modelled from the spec: the scan behind `spec_decode_encoded_unreserved_chars`; the
first argument counts the characters of a decoded triplet still to be skipped. -/
def spec_decode_scan : Nat → List Nat → List Nat
  | _, [] => []
  | k + 1, _ :: cs => spec_decode_scan k cs
  | 0, c :: cs =>
    if c = '%'.toNat ∧ starts_with_hex_pair cs ∧ spec_is_unreserved (triplet_octet cs) then
      triplet_octet cs :: spec_decode_scan 2 cs
    else c :: spec_decode_scan 0 cs

/-- Modelled from the spec: `decode_encoded_unreserved_chars` (detail/uri_percent_encode.hpp,
not among the sources) decodes back to the literal character every percent-encoded octet
of the unreserved set, shrinking the buffer. -/
def spec_decode_encoded_unreserved_chars (str : List Nat) : List Nat := spec_decode_scan 0 str

/-- Modelled from the spec: the `/`-delimited segments of a path. -/
def spec_split_slash : List Nat → List (List Nat)
  | [] => [[]]
  | c :: cs =>
    if c = '/'.toNat then [] :: spec_split_slash cs
    else
      match spec_split_slash cs with
      | [] => [[c]]
      | seg :: segs => (c :: seg) :: segs

/-- Modelled from the spec: left-to-right collapsing of `.` and `..`; `kept` holds the
segments kept so far, last first, and a `..` with nothing to remove is discarded. -/
def spec_collapse_dots : List (List Nat) → List (List Nat) → List (List Nat)
  | kept, [] => kept.reverse
  | kept, seg :: segs =>
    if seg = ascii "." then spec_collapse_dots kept segs
    else if seg = ascii ".." then spec_collapse_dots kept.tail segs
    else spec_collapse_dots (seg :: kept) segs

/-- Modelled from the spec: `normalize_path_segments` (detail/uri_normalize.hpp, not among
the sources) is dot-segment removal: `.` and `..` are collapsed over the `/`-delimited
segments, left to right, a `..` at the root being discarded. -/
def spec_normalize_path_segments (path : List Nat) : List Nat :=
  let absolute := path.head? = some '/'.toNat
  let segs := spec_split_slash (if absolute then path.tail else path)
  let kept := spec_collapse_dots [] segs
  let kept :=
    if segs.getLast? = some (ascii ".") ∨ segs.getLast? = some (ascii "..") then kept ++ [[]]
    else kept
  (if absolute then ascii "/" else []) ++ (ascii "/").intercalate kept

/-- Modelled from the spec: the component split of `parse` (detail/uri_parse.hpp, not
among the sources). Components are recognised left to right by their delimiters: an
optional scheme terminated by `:`, an optional authority introduced by `//` (an optional
user-info terminated by `@`, a host, an optional port introduced by `:`), a path, an
optional query introduced by `?`, an optional fragment introduced by `#`. -/
def spec_parse_parts (buf : List Nat) : uri_parts :=
  let n := buf.length
  let stop := buf.findIdx fun c =>
    c == ':'.toNat || c == '/'.toNat || c == '?'.toNat || c == '#'.toNat
  let has_scheme := decide (stop < n) && buf.getD stop 0 == ':'.toNat
  let p0 := if has_scheme then stop + 1 else 0
  let has_authority := (buf.drop p0).take 2 == ascii "//"
  let a0 := p0 + 2
  let a1 := a0 + (buf.drop a0).findIdx fun c =>
    c == '/'.toNat || c == '?'.toNat || c == '#'.toNat
  let authority := (buf.drop a0).take (a1 - a0)
  let at_sign := authority.findIdx fun c => c == '@'.toNat
  let has_user_info := decide (at_sign < authority.length)
  let h0 := if has_user_info then a0 + at_sign + 1 else a0
  let host_port := (buf.drop h0).take (a1 - h0)
  let colon := host_port.findIdx fun c => c == ':'.toNat
  let has_port := decide (colon < host_port.length)
  let p1 := if has_authority then a1 else p0
  let p2 := p1 + (buf.drop p1).findIdx fun c => c == '?'.toNat || c == '#'.toNat
  let has_query := decide (p2 < n) && buf.getD p2 0 == '?'.toNat
  let q1 := p2 + 1 + (buf.drop (p2 + 1)).findIdx fun c => c == '#'.toNat
  let f0 := if has_query then q1 else p2
  let has_fragment := decide (f0 < n) && buf.getD f0 0 == '#'.toNat
  { scheme := if has_scheme then some ⟨0, stop⟩ else none
    user_info := if has_authority && has_user_info then some ⟨a0, a0 + at_sign⟩ else none
    host := if has_authority then some ⟨h0, h0 + colon⟩ else none
    port := if has_authority && has_port then some ⟨h0 + colon + 1, a1⟩ else none
    path := some ⟨p1, p2⟩
    query := if has_query then some ⟨p2 + 1, q1⟩ else none
    fragment := if has_fragment then some ⟨f0 + 1, n⟩ else none }

/-- Modelled from the spec: `parse` returns the component split and a validity flag.
The spec does not state which buffers violate the grammar, so the flag is the
parameter `grammar_ok` applied to the buffer. -/
def spec_parse (grammar_ok : List Nat → Bool) (buf : List Nat) (_parts : uri_parts) :
    Bool × uri_parts :=
  (grammar_ok buf, spec_parse_parts buf)

/-- Modelled from the spec: the collaborators of url.cpp as sections 4.2 to 4.4 of the
spec describe them. -/
def spec_services (grammar_ok : List Nat → Bool) : services where
  trim_copy := spec_trim_copy
  parse := spec_parse grammar_ok
  advance_parts := spec_advance_parts
  percent_encoded_to_upper := spec_percent_encoded_to_upper
  decode_encoded_unreserved_chars := spec_decode_encoded_unreserved_chars
  normalize_path_segments := spec_normalize_path_segments

/-- Following the claim's words: the authority of a Component Set. With a non-empty
host it starts at a non-empty user-info (else at the host) and ends at a non-empty port's
end, one past the host's end for a present-but-empty port, and at the host's end for an
absent port. With an empty host it runs from a non-empty user-info (else from one before
a non-empty port) to a non-empty port's end (else to one past the user-info's end), and
is the empty view when neither is there. With no host it is the empty view. -/
def spec_authority (parts : uri_parts) : string_view :=
  match parts.host with
  | none => string_view.null
  | some host =>
    let user_info := parts.user_info.filter fun p => decide (p.first < p.last)
    let port := parts.port.filter fun p => decide (p.first < p.last)
    if host.first < host.last then
      let start :=
        match user_info with
        | some i => i.first
        | none => host.first
      let stop :=
        match parts.port with
        | none => host.last
        | some p => if p.first < p.last then p.last else host.last + 1
      ⟨some start, stop - start⟩
    else
      match user_info, port with
      | some i, some p => ⟨some i.first, p.last - i.first⟩
      | none, some p => ⟨some (p.first - 1), p.last - (p.first - 1)⟩
      | some i, none => ⟨some i.first, i.last + 1 - i.first⟩
      | none, none => string_view.null

/-- Following the spec's words: a present span is a half-open range, so its start is not
after its end. -/
def spec_span_ok (part : Option uri_part) : Prop :=
  ∀ p, part = some p → p.first ≤ p.last

/-- Following the spec's words: the segments of a query, split at every `&` or `;`. -/
def spec_split_segments : List Nat → List (List Nat)
  | [] => [[]]
  | c :: cs =>
    if is_pair_separator c then [] :: spec_split_segments cs
    else
      match spec_split_segments cs with
      | [] => [[c]]
      | seg :: segs => (c :: seg) :: segs

/-- Following the spec's words: the key is the text before the first `=` (the whole
segment when it has none), the value is the text after that `=`. -/
def spec_key_value (seg : List Nat) : List Nat × List Nat :=
  (seg.takeWhile fun c => !is_equals_sign c, (seg.dropWhile fun c => !is_equals_sign c).drop 1)

/-- Following the spec's words: no pair for an empty query; otherwise one pair per
segment, a final empty segment (after a trailing separator) giving no pair. -/
def spec_query_pairs (q : List Nat) : List (List Nat × List Nat) :=
  if q = [] then []
  else
    let segs := spec_split_segments q
    let segs := if segs.getLast? = some [] then segs.dropLast else segs
    segs.map spec_key_value

end whatwg
end network

namespace skyr
namespace utf8

open details

theorem increment_at_end (buf : List Nat) (it last : Nat) (h : it + 1 = last) :
    increment buf it last = (.unexpected .overflow, it + 1) := by
  simp [increment, h]

theorem increment_trail (buf : List Nat) (it last : Nat) (h : it + 1 ≠ last)
    (ht : is_trail (deref buf (it + 1)) = true) :
    increment buf it last = (.value (it + 1), it + 1) := by
  simp [increment, h, ht]

theorem sequence_length_cases (buf : List Nat) (it : Nat) :
    sequence_length buf it = 0 ∨ sequence_length buf it = 1 ∨ sequence_length buf it = 2 ∨
      sequence_length buf it = 3 ∨ sequence_length buf it = 4 := by
  unfold sequence_length
  simp only
  split_ifs <;> simp

/-- C10: `validate_next` (the decoder behind `next`) returns `overflow` on an empty
input, and on every input whose lead byte announces a length of 2, 3 or 4 while
fewer bytes than that remain and every continuation byte present is a trail byte;
the single byte C2 is such an input. -/
theorem validate_next_truncated_overflow :
    (∀ (buf : List Nat) (it : Nat),
        (validate_next buf it it).1 = .unexpected .overflow) ∧
    (∀ (buf : List Nat) (it last : Nat), it < last →
        2 ≤ sequence_length buf it →
        last - it < sequence_length buf it →
        (∀ j, it < j → j < last → is_trail (deref buf j) = true) →
        (validate_next buf it last).1 = .unexpected .overflow) ∧
    validate_next [0xC2] 0 1 = (.unexpected .overflow, 1) := by
  refine ⟨?_, ?_, by decide⟩
  · intro buf it
    simp [validate_next]
  · intro buf it last hlt hL hshort htrail
    have hne : it ≠ last := by omega
    rcases sequence_length_cases buf it with h | h | h | h | h
    · omega
    · omega
    · have h1 : it + 1 = last := by omega
      simp [validate_next, h, hne, get_sequence_2, increment_at_end buf it last h1]
    · by_cases h1 : it + 1 = last
      · simp [validate_next, h, hne, get_sequence_3, increment_at_end buf it last h1]
      · have h2 : it + 1 + 1 = last := by omega
        have t1 := htrail (it + 1) (by omega) (by omega)
        simp [validate_next, h, hne, get_sequence_3, increment_trail buf it last h1 t1,
          increment_at_end buf (it + 1) last h2]
    · by_cases h1 : it + 1 = last
      · simp [validate_next, h, hne, get_sequence_4, increment_at_end buf it last h1]
      · have t1 := htrail (it + 1) (by omega) (by omega)
        by_cases h2 : it + 1 + 1 = last
        · simp [validate_next, h, hne, get_sequence_4, increment_trail buf it last h1 t1,
            increment_at_end buf (it + 1) last h2]
        · have h3 : it + 1 + 1 + 1 = last := by omega
          have t2 := htrail (it + 1 + 1) (by omega) (by omega)
          simp [validate_next, h, hne, get_sequence_4, increment_trail buf it last h1 t1,
            increment_trail buf (it + 1) last h2 t2,
            increment_at_end buf (it + 1 + 1) last h3]

/-- C10 at concrete inputs: the empty input, the lone lead byte C2, and the
truncated three-byte sequence E2 82. -/
theorem validate_next_truncated_overflow_witness :
    (validate_next [] 0 0).1 = .unexpected .overflow ∧
    (validate_next [0xE2, 0x82] 0 2).1 = .unexpected .overflow :=
  ⟨validate_next_truncated_overflow.1 [] 0,
   validate_next_truncated_overflow.2.1 [0xE2, 0x82] 0 2 (by decide) (by decide) (by decide)
     (by
      intro j h1 h2
      have hj : j = 1 := by omega
      subst hj
      decide)⟩

end utf8
end skyr


namespace network
namespace whatwg

open detail

theorem slice_mid (pre q post : List Nat) (a b : Nat) (h : a + b ≤ q.length) :
    ((pre ++ q ++ post).drop (pre.length + a)).take b = (q.drop a).take b := by
  rw [List.append_assoc, List.drop_append, List.drop_append_of_le_length (by omega),
    List.take_append_of_le_length (by simp; omega)]

theorem find_if_n_eq (pred : Nat → Bool) (post : List Nat) :
    ∀ (q pre : List Nat),
      find_if_n (pre ++ q ++ post) pred q.length pre.length = pre.length + q.findIdx pred := by
  intro q
  induction q with
  | nil => intro pre; simp [find_if_n]
  | cons c cs ih =>
    intro pre
    have hget : (pre ++ c :: cs ++ post).getD pre.length 0 = c := by
      rw [List.append_assoc, List.getD_eq_getElem?_getD, List.getElem?_append_right (le_refl _)]
      simp
    have hstep := ih (pre ++ [c])
    have hbuf : pre ++ [c] ++ cs ++ post = pre ++ c :: cs ++ post := by simp
    rw [hbuf] at hstep
    simp only [List.length_append, List.length_singleton] at hstep
    simp only [List.length_cons, find_if_n, hget, List.findIdx_cons]
    by_cases hc : pred c = true
    · simp [hc]
    · have hc' : pred c = false := by simpa using hc
      simp only [hc', Bool.false_eq_true, if_false, cond_false]
      rw [hstep]
      omega

theorem findIdx_le (pred : Nat → Bool) (q : List Nat) : q.findIdx pred ≤ q.length :=
  List.findIdx_le_length pred

theorem find_if_sub (pred : Nat → Bool) (pre q post : List Nat) (i : Nat) (hi : i ≤ q.length) :
    find_if (pre ++ q ++ post) pred pre.length (pre.length + i)
      = pre.length + (q.take i).findIdx pred := by
  have hbuf : pre ++ q ++ post = pre ++ q.take i ++ (q.drop i ++ post) := by
    conv_lhs => rw [← List.take_append_drop i q]
    simp only [List.append_assoc]
  have hlen : (q.take i).length = i := by simp [List.length_take]; omega
  unfold find_if
  rw [hbuf, Nat.add_sub_cancel_left]
  have := find_if_n_eq pred (q.drop i ++ post) (q.take i) pre
  rw [hlen] at this
  exact this

theorem take_findIdx (p : Nat → Bool) (l : List Nat) :
    l.take (l.findIdx p) = l.takeWhile fun c => !p c := by
  induction l with
  | nil => simp
  | cons c cs ih =>
    by_cases hc : p c = true
    · simp [List.findIdx_cons, List.takeWhile_cons, hc]
    · have hc' : p c = false := by simpa using hc
      simp [List.findIdx_cons, List.takeWhile_cons, hc', ih]

theorem drop_findIdx_succ (p : Nat → Bool) (l : List Nat) :
    l.drop (l.findIdx p + 1) = (l.dropWhile fun c => !p c).drop 1 := by
  induction l with
  | nil => simp
  | cons c cs ih =>
    by_cases hc : p c = true
    · simp [List.findIdx_cons, List.dropWhile_cons, hc]
    · have hc' : p c = false := by simpa using hc
      simp [List.findIdx_cons, List.dropWhile_cons, hc', ih]

theorem spec_split_segments_ne_nil (q : List Nat) : spec_split_segments q ≠ [] := by
  cases q with
  | nil => simp [spec_split_segments]
  | cons c cs =>
    unfold spec_split_segments
    split_ifs
    · simp
    · split <;> simp

theorem spec_split_segments_unfold (q : List Nat) :
    spec_split_segments q =
      if q.findIdx is_pair_separator < q.length then
        q.take (q.findIdx is_pair_separator) ::
          spec_split_segments (q.drop (q.findIdx is_pair_separator + 1))
      else [q] := by
  induction q with
  | nil => simp [spec_split_segments]
  | cons c cs ih =>
    by_cases hc : is_pair_separator c = true
    · simp [spec_split_segments, List.findIdx_cons, hc]
    · have hc' : is_pair_separator c = false := by simpa using hc
      simp only [spec_split_segments, hc', List.findIdx_cons, cond_false, Bool.false_eq_true,
        if_false, List.length_cons, Nat.add_lt_add_iff_right, List.take_succ_cons,
        List.drop_succ_cons]
      rw [ih]
      split_ifs <;> simp

theorem spec_query_pairs_unfold (q : List Nat) (hq : q ≠ []) :
    spec_query_pairs q =
      spec_key_value (q.take (q.findIdx is_pair_separator)) ::
        spec_query_pairs (q.drop (q.findIdx is_pair_separator + 1)) := by
  have hle := findIdx_le is_pair_separator q
  by_cases hlt : q.findIdx is_pair_separator < q.length
  · by_cases hr : q.drop (q.findIdx is_pair_separator + 1) = []
    · have h1 : spec_split_segments q = [q.take (q.findIdx is_pair_separator), []] := by
        rw [spec_split_segments_unfold q, if_pos hlt, hr]
        simp [spec_split_segments]
      simp [spec_query_pairs, hq, h1, hr]
    · have hne := spec_split_segments_ne_nil (q.drop (q.findIdx is_pair_separator + 1))
      have h1 := spec_split_segments_unfold q
      rw [if_pos hlt] at h1
      obtain ⟨x, xs, hx⟩ := List.exists_cons_of_ne_nil hne
      simp only [spec_query_pairs, hq, if_false, h1, hr]
      rw [hx, List.getLast?_cons_cons]
      split_ifs
      · rw [List.dropLast_cons_of_ne_nil (by simp)]
        simp
      · simp
  · have hi : q.findIdx is_pair_separator = q.length := by omega
    have h1 : spec_split_segments q = [q] := by
      rw [spec_split_segments_unfold q, if_neg hlt]
    simp [spec_query_pairs, hq, h1, hi]

theorem assign_kvp_spec (pre q post : List Nat) (it : query_iterator)
    (hq : it.query_ = some ⟨pre.length, pre.length + q.length⟩) :
    ∃ it', query_iterator.assign_kvp (pre ++ q ++ post) it = some it' ∧
      it'.addr = it.addr ∧ it'.query_ = it.query_ ∧
      (it'.kvp_.1.text (pre ++ q ++ post), it'.kvp_.2.text (pre ++ q ++ post))
        = spec_key_value (q.take (q.findIdx is_pair_separator)) := by
  have hi := findIdx_le is_pair_separator q
  have hj := findIdx_le is_equals_sign (q.take (q.findIdx is_pair_separator))
  have hlen : (q.take (q.findIdx is_pair_separator)).length = q.findIdx is_pair_separator := by
    simp [List.length_take]; omega
  rw [hlen] at hj
  have hsep := find_if_sub is_pair_separator pre q post q.length (le_refl _)
  rw [List.take_length] at hsep
  have heq := find_if_sub is_equals_sign pre q post (q.findIdx is_pair_separator) hi
  simp only [query_iterator.assign_kvp, hq, Option.some.injEq, exists_eq_left', true_and]
  · simp only [hsep, heq, spec_key_value, string_view.text, Prod.mk.injEq]
    constructor
    · rw [Nat.add_sub_cancel_left]
      have := slice_mid pre q post 0 _ (by omega :
        0 + (q.take (q.findIdx is_pair_separator)).findIdx is_equals_sign ≤ q.length)
      rw [Nat.add_zero, List.drop_zero] at this
      rw [this, ← take_findIdx, List.take_take, Nat.min_eq_left hj]
    · rw [← drop_findIdx_succ, List.drop_take]
      by_cases hne : (q.take (q.findIdx is_pair_separator)).findIdx is_equals_sign
          = q.findIdx is_pair_separator
      · simp [hne]
      · have hlt : (q.take (q.findIdx is_pair_separator)).findIdx is_equals_sign
            < q.findIdx is_pair_separator := by omega
        have hne' : pre.length + (q.take (q.findIdx is_pair_separator)).findIdx is_equals_sign
            ≠ pre.length + q.findIdx is_pair_separator := by omega
        simp only [hne', ne_eq, not_false_eq_true, if_true]
        have := slice_mid pre q post
          ((q.take (q.findIdx is_pair_separator)).findIdx is_equals_sign + 1)
          (q.findIdx is_pair_separator -
            ((q.take (q.findIdx is_pair_separator)).findIdx is_equals_sign + 1)) (by omega)
        rw [← Nat.add_assoc] at this
        rw [show pre.length + q.findIdx is_pair_separator -
            (pre.length + (q.take (q.findIdx is_pair_separator)).findIdx is_equals_sign + 1)
            = q.findIdx is_pair_separator -
              ((q.take (q.findIdx is_pair_separator)).findIdx is_equals_sign + 1) by omega]
        exact this

theorem increment_spec (pre q post : List Nat) (it : query_iterator)
    (hq : it.query_ = some ⟨pre.length, pre.length + q.length⟩) (hne : q ≠ []) :
    ∃ it', query_iterator.increment (pre ++ q ++ post) it = some it' ∧
      (q.drop (q.findIdx is_pair_separator + 1) = [] → it'.query_ = none) ∧
      (q.drop (q.findIdx is_pair_separator + 1) ≠ [] →
        it'.query_ = some ⟨(pre ++ q.take (q.findIdx is_pair_separator + 1)).length,
          (pre ++ q.take (q.findIdx is_pair_separator + 1)).length +
            (q.drop (q.findIdx is_pair_separator + 1)).length⟩ ∧
        (it'.kvp_.1.text (pre ++ q ++ post), it'.kvp_.2.text (pre ++ q ++ post))
          = spec_key_value ((q.drop (q.findIdx is_pair_separator + 1)).take
              ((q.drop (q.findIdx is_pair_separator + 1)).findIdx is_pair_separator))) := by
  have hi := findIdx_le is_pair_separator q
  have hpos : 0 < q.length := List.length_pos.mpr hne
  have hsep := find_if_sub is_pair_separator pre q post q.length (le_refl _)
  rw [List.take_length] at hsep
  have hbuf : pre ++ q ++ post = pre ++ q.take (q.findIdx is_pair_separator + 1) ++
      q.drop (q.findIdx is_pair_separator + 1) ++ post := by
    conv_lhs => rw [← List.take_append_drop (q.findIdx is_pair_separator + 1) q]
    simp only [List.append_assoc]
  have hlen1 : (pre ++ q.take (q.findIdx is_pair_separator + 1)).length
      = if pre.length + q.findIdx is_pair_separator ≠ pre.length + q.length
        then pre.length + q.findIdx is_pair_separator + 1
        else pre.length + q.findIdx is_pair_separator := by
    simp only [List.length_append, List.length_take]
    split_ifs <;> omega
  have hlen2 : (pre ++ q.take (q.findIdx is_pair_separator + 1)).length +
      (q.drop (q.findIdx is_pair_separator + 1)).length = pre.length + q.length := by
    simp only [List.length_append, List.length_take, List.length_drop]
    omega
  have hadv : query_iterator.advance_to_next_kvp (pre ++ q ++ post) it
      = some { it with query_ := some ⟨(pre ++ q.take (q.findIdx is_pair_separator + 1)).length,
          (pre ++ q.take (q.findIdx is_pair_separator + 1)).length +
            (q.drop (q.findIdx is_pair_separator + 1)).length⟩ } := by
    simp only [query_iterator.advance_to_next_kvp, hq, hsep]
    rw [hlen2, hlen1]
  obtain ⟨it2, h2, _, hquery, htext⟩ :=
    assign_kvp_spec (pre ++ q.take (q.findIdx is_pair_separator + 1))
      (q.drop (q.findIdx is_pair_separator + 1)) post
      { it with query_ := some ⟨(pre ++ q.take (q.findIdx is_pair_separator + 1)).length,
          (pre ++ q.take (q.findIdx is_pair_separator + 1)).length +
            (q.drop (q.findIdx is_pair_separator + 1)).length⟩ } rfl
  rw [← hbuf] at h2 htext
  have hempty : (⟨pre.length, pre.length + q.length⟩ : uri_part).empty = false := by
    simp only [uri_part.empty, beq_eq_false_iff_ne, ne_eq]
    omega
  simp only [query_iterator.increment, hq, hempty, Bool.not_false, if_true, hadv,
    Option.some_bind, h2, hquery]
  by_cases hr : q.drop (q.findIdx is_pair_separator + 1) = []
  · refine ⟨{ it2 with query_ := none }, ?_, fun _ => rfl, fun h => absurd hr h⟩
    simp [uri_part.empty, hr]
  · refine ⟨it2, ?_, fun h => absurd h hr, fun _ => ⟨hquery, htext⟩⟩
    have : 0 < (q.drop (q.findIdx is_pair_separator + 1)).length := List.length_pos.mpr hr
    simp only [uri_part.empty, beq_iff_eq]
    rw [if_neg (by omega)]

theorem query_pairs_loop_spec (post : List Nat) (end_addr : Nat) (parts : uri_parts) :
    ∀ (n : Nat) (q pre : List Nat) (fuel : Nat) (it : query_iterator),
      q.length ≤ n → q ≠ [] →
      it.query_ = some ⟨pre.length, pre.length + q.length⟩ →
      (it.kvp_.1.text (pre ++ q ++ post), it.kvp_.2.text (pre ++ q ++ post))
        = spec_key_value (q.take (q.findIdx is_pair_separator)) →
      q.length + 1 ≤ fuel →
      url.query_pairs_loop ⟨pre ++ q ++ post, parts⟩ end_addr fuel it
        = some (spec_query_pairs q) := by
  intro n
  induction n with
  | zero =>
    intro q pre fuel it hn hne
    exact absurd (List.length_eq_zero.mp (Nat.le_zero.mp hn)) hne
  | succ n ih =>
    intro q pre fuel it hn hne hq htext hfuel
    have hpos : 0 < q.length := List.length_pos.mpr hne
    obtain ⟨f, rfl⟩ : ∃ f, fuel = f + 1 := ⟨fuel - 1, by omega⟩
    obtain ⟨it', hinc, hnone, hsome⟩ := increment_spec pre q post it hq hne
    have hend : it.eq (url.query_end ⟨pre ++ q ++ post, parts⟩ end_addr) = false := by
      simp [query_iterator.eq, url.query_end, query_iterator.default, hq]
    rw [spec_query_pairs_unfold q hne]
    simp only [url.query_pairs_loop, hend, Bool.false_eq_true, if_false, hinc]
    have hkv : (it.kvp_.1.text (pre ++ q ++ post), it.kvp_.2.text (pre ++ q ++ post))
        = spec_key_value (q.take (q.findIdx is_pair_separator)) := htext
    by_cases hr : q.drop (q.findIdx is_pair_separator + 1) = []
    · obtain ⟨g, rfl⟩ : ∃ g, f = g + 1 := ⟨f - 1, by omega⟩
      have hend' : it'.eq (url.query_end ⟨pre ++ q ++ post, parts⟩ end_addr) = true := by
        simp [query_iterator.eq, url.query_end, query_iterator.default, hnone hr]
      simp only [url.query_pairs_loop, hend', if_true, Option.map_some', hkv, hr]
      simp [spec_query_pairs]
    · obtain ⟨hq', htext'⟩ := hsome hr
      have hbuf : pre ++ q ++ post = pre ++ q.take (q.findIdx is_pair_separator + 1) ++
          q.drop (q.findIdx is_pair_separator + 1) ++ post := by
        conv_lhs => rw [← List.take_append_drop (q.findIdx is_pair_separator + 1) q]
        simp only [List.append_assoc]
      have hlen : (q.drop (q.findIdx is_pair_separator + 1)).length + 1 ≤ q.length := by
        simp only [List.length_drop]; omega
      have hrec := ih (q.drop (q.findIdx is_pair_separator + 1))
        (pre ++ q.take (q.findIdx is_pair_separator + 1)) f it' (by omega) hr hq'
        (by rw [← hbuf]; exact htext') (by omega)
      rw [← hbuf] at hrec
      simp only [hrec, Option.map_some', hkv]

/-- C6: iterating from `query_begin()` until the iterator equals `query_end()` yields,
in order, one (key, value) pair per segment of the query split at every `&` or `;`
(a final empty segment yields none), the key being the text before the segment's first
`=` and the value the text after it; a present-but-empty or absent query yields nothing;
for "a=1&b&c=" the pairs are ("a","1"), ("b",""), ("c",""). The query occupies any
range `[pre.length, pre.length + q.length)` of any buffer `pre ++ q ++ post`. -/
theorem query_pairs_eq_spec :
    (∀ (pre q post : List Nat) (parts : uri_parts) (addr end_addr : Nat),
      (url.mk (pre ++ q ++ post)
          { parts with query := some ⟨pre.length, pre.length + q.length⟩ }).query_pairs
          addr end_addr
        = some (spec_query_pairs q)) ∧
    (∀ (buf : List Nat) (parts : uri_parts) (addr end_addr : Nat),
      (url.mk buf { parts with query := none }).query_pairs addr end_addr = some []) ∧
    (∀ (pre post : List Nat) (parts : uri_parts) (addr end_addr : Nat),
      (url.mk (pre ++ post)
          { parts with query := some ⟨pre.length, pre.length⟩ }).query_pairs addr end_addr
        = some []) ∧
    spec_query_pairs (ascii "a=1&b&c=")
      = [(ascii "a", ascii "1"), (ascii "b", []), (ascii "c", [])] ∧
    (url.mk (ascii "http://h/p?a=1&b&c=#f") { query := some ⟨11, 19⟩ }).query_pairs 0 1
      = some [(ascii "a", ascii "1"), (ascii "b", []), (ascii "c", [])] := by
  have main : ∀ (pre q post : List Nat) (parts : uri_parts) (addr end_addr : Nat),
      (url.mk (pre ++ q ++ post)
          { parts with query := some ⟨pre.length, pre.length + q.length⟩ }).query_pairs
          addr end_addr
        = some (spec_query_pairs q) := by
    intro pre q post parts addr end_addr
    by_cases hq : q = []
    · subst hq
      simp [url.query_pairs, url.query_begin, url.has_query, query_iterator.from_part,
        uri_part.empty, url.query_pairs_loop, query_iterator.eq, url.query_end,
        query_iterator.default, spec_query_pairs]
    · have hpos : 0 < q.length := List.length_pos.mpr hq
      have hempty : (⟨pre.length, pre.length + q.length⟩ : uri_part).empty = false := by
        simp only [uri_part.empty, beq_eq_false_iff_ne, ne_eq]
        omega
      obtain ⟨it, hit, _, hquery, htext⟩ := assign_kvp_spec pre q post
        { addr := addr, query_ := some ⟨pre.length, pre.length + q.length⟩,
          kvp_ := (string_view.null, string_view.null) } rfl
      simp only [url.query_pairs, url.query_begin, url.has_query, Option.isSome_some, if_true,
        query_iterator.from_part, hempty, Bool.false_eq_true, if_false, hit, Option.some_bind]
      exact query_pairs_loop_spec post end_addr _ q.length q pre _ it (le_refl _) hq hquery
        htext (by simp only [List.length_append]; omega)
  refine ⟨main, ?_, ?_, by decide, by decide⟩
  · intro buf parts addr end_addr
    simp [url.query_pairs, url.query_begin, url.has_query, url.query_pairs_loop,
      query_iterator.eq, url.query_end, query_iterator.default]
  · intro pre post parts addr end_addr
    have := main pre [] post parts addr end_addr
    simpa [spec_query_pairs] using this

end whatwg
end network

namespace network
namespace whatwg

open detail

theorem string_compare_neg_iff :
    ∀ (a b : List Nat), url.string_compare a b < 0 ↔ List.Lex (· < ·) a b := by
  intro a
  induction a with
  | nil =>
    intro b
    cases b with
    | nil => simp [url.string_compare, List.Lex.not_nil_right]
    | cons y ys => simp [url.string_compare, List.Lex.nil]
  | cons x xs ih =>
    intro b
    cases b with
    | nil => simp [url.string_compare, List.Lex.not_nil_right]
    | cons y ys =>
      simp only [url.string_compare]
      rcases Nat.lt_trichotomy x y with h | h | h
      · simp [h, List.Lex.rel h]
      · subst h
        simp [ih ys, List.Lex.cons_iff]
      · have hn : ¬ x < y := by omega
        simp only [hn, h, if_false, if_true]
        constructor
        · intro h'
          omega
        · intro h'
          cases h' with
          | cons h'' => omega
          | rel h'' => omega

theorem string_compare_zero_iff :
    ∀ (a b : List Nat), url.string_compare a b = 0 ↔ a = b := by
  intro a
  induction a with
  | nil =>
    intro b
    cases b <;> simp [url.string_compare]
  | cons x xs ih =>
    intro b
    cases b with
    | nil => simp [url.string_compare]
    | cons y ys =>
      simp only [url.string_compare]
      rcases Nat.lt_trichotomy x y with h | h | h
      · have : x ≠ y := by omega
        simp [h, this]
      · subst h
        simp [ih ys]
      · have hn : ¬ x < y := by omega
        have : x ≠ y := by omega
        simp [hn, h, this]

theorem string_compare_pos_iff :
    ∀ (a b : List Nat), 0 < url.string_compare a b ↔ List.Lex (· < ·) b a := by
  intro a
  induction a with
  | nil =>
    intro b
    cases b with
    | nil => simp [url.string_compare, List.Lex.not_nil_right]
    | cons y ys => simp [url.string_compare, List.Lex.not_nil_right]
  | cons x xs ih =>
    intro b
    cases b with
    | nil => simp [url.string_compare, List.Lex.nil]
    | cons y ys =>
      simp only [url.string_compare]
      rcases Nat.lt_trichotomy x y with h | h | h
      · simp only [h, if_true]
        constructor
        · intro h'
          omega
        · intro h'
          cases h' with
          | cons h'' => omega
          | rel h'' => omega
      · subst h
        simp [ih ys, List.Lex.cons_iff]
      · have hn : ¬ x < y := by omega
        simp [hn, h, List.Lex.rel h]

/-- For any collaborators and any two url values, `compare` is 0 when both buffers
are empty, negative when only the first is empty, positive when only the second is
empty; otherwise it returns exactly when both calls of `normalize` return, and its sign
is then that of the byte-lexicographic comparison of the two normalized buffers;
`operator==` is `compare == 0` and `operator<` is `compare < 0`. -/
theorem compare_spec (env : services) (a b : url) :
    (a.url_ = [] → b.url_ = [] → url.compare env a b = some 0) ∧
    (a.url_ = [] → b.url_ ≠ [] → ∃ r, url.compare env a b = some r ∧ r < 0) ∧
    (a.url_ ≠ [] → b.url_ = [] → ∃ r, url.compare env a b = some r ∧ 0 < r) ∧
    (a.url_ ≠ [] → b.url_ ≠ [] →
      (∀ na nb, url.normalize env a = some na → url.normalize env b = some nb →
        ∃ r, url.compare env a b = some r ∧
          (r < 0 ↔ List.Lex (· < ·) na.url_ nb.url_) ∧
          (r = 0 ↔ na.url_ = nb.url_) ∧
          (0 < r ↔ List.Lex (· < ·) nb.url_ na.url_)) ∧
      (url.normalize env a = none ∨ url.normalize env b = none →
        url.compare env a b = none)) ∧
    url.op_eq env a b = (url.compare env a b).map (fun r => decide (r = 0)) ∧
    url.op_lt env a b = (url.compare env a b).map (fun r => decide (r < 0)) := by
  refine ⟨?_, ?_, ?_, ?_, rfl, rfl⟩
  · intro ha hb
    simp [url.compare, url.empty, ha, hb]
  · intro ha hb
    refine ⟨-1, ?_, by decide⟩
    simp [url.compare, url.empty, ha, hb]
  · intro ha hb
    refine ⟨1, ?_, by decide⟩
    simp [url.compare, url.empty, ha, hb]
  · intro ha hb
    constructor
    · intro na nb hna hnb
      refine ⟨url.string_compare na.url_ nb.url_, ?_, string_compare_neg_iff _ _,
        string_compare_zero_iff _ _, string_compare_pos_iff _ _⟩
      simp [url.compare, url.empty, ha, hb, hna, hnb]
    · intro h
      rcases h with h | h
      · simp [url.compare, url.empty, ha, hb, h]
      · cases hna : url.normalize env a <;> simp [url.compare, url.empty, ha, hb, h, hna]

/-- The lemma `compare_spec` at concrete inputs, with the collaborators as the spec
describes them: the empty url against "http://a.com/", and "HTTP://B.com/" against
"http://a.com/". -/
theorem compare_spec_example :
    (∃ r, url.compare (spec_services fun _ => true) ⟨[], {}⟩
        (url.from_string (spec_services fun _ => true) (ascii "http://a.com/")) = some r ∧ r < 0) ∧
    (∃ r, url.compare (spec_services fun _ => true)
        (url.from_string (spec_services fun _ => true) (ascii "HTTP://B.com/"))
        (url.from_string (spec_services fun _ => true) (ascii "http://a.com/")) = some r ∧
      (0 < r ↔ List.Lex (· < ·) (ascii "http://a.com/") (ascii "http://b.com/"))) :=
  ⟨(compare_spec (spec_services fun _ => true) ⟨[], {}⟩
      (url.from_string (spec_services fun _ => true) (ascii "http://a.com/"))).2.1
      rfl (by decide),
   by
    obtain ⟨r, hr, _, _, hpos⟩ :=
      ((compare_spec (spec_services fun _ => true)
        (url.from_string (spec_services fun _ => true) (ascii "HTTP://B.com/"))
        (url.from_string (spec_services fun _ => true) (ascii "http://a.com/"))).2.2.2.1
        (by decide) (by decide)).1
        (url.from_string (spec_services fun _ => true) (ascii "http://b.com/"))
        (url.from_string (spec_services fun _ => true) (ascii "http://a.com/"))
        (by decide) (by decide)
    exact ⟨r, hr, hpos⟩⟩

/-- C5 fails on the code: with the collaborators as the spec describes them,
`normalize` maps "http://%41.com/" to "http://A.com/" (the host is lower-cased before
the percent-encoded `A` is decoded), and maps that result to "http://a.com/". -/
theorem normalize_not_idempotent :
    (url.normalize (spec_services fun _ => true)
      (url.from_string (spec_services fun _ => true) (ascii "http://%41.com/"))).map url.url_
      = some (ascii "http://A.com/") ∧
    ((url.normalize (spec_services fun _ => true)
      (url.from_string (spec_services fun _ => true) (ascii "http://%41.com/"))).bind
        (url.normalize (spec_services fun _ => true))).map url.url_
      = some (ascii "http://a.com/") := by
  constructor <;> decide

end whatwg
end network

namespace skyr
namespace utf8

open details

/-- C1 fails on the code: `is_overlong_sequence` is false for every argument, and
`validate_next` returns the value 0 for the overlong sequences E0 80 80 and C0 80. -/
theorem validate_next_accepts_overlong :
    (∀ code_point length : Nat, is_overlong_sequence code_point length = false) ∧
    validate_next [0xE0, 0x80, 0x80] 0 3 = (.value 0, 3) ∧
    validate_next [0xC0, 0x80] 0 2 = (.value 0, 2) := by
  refine ⟨?_, by decide, by decide⟩
  intro code_point length
  simp [is_overlong_sequence]

/-- C2 fails on the code: `append` returns `invalid_code_point` exactly when the value
is above 0x10FFFF or its low 16 bits lie in the surrogate range, so the
supplementary-plane code point U+1D800 is rejected. -/
theorem append_rejects_U1D800 :
    (∀ (code_point : Nat) (mem : List Nat) (result : Nat),
      (append code_point mem result).1 = .unexpected .invalid_code_point ↔
        (0x10FFFF < code_point ∨
          (0xD800 ≤ code_point % 0x10000 ∧ code_point % 0x10000 ≤ 0xDFFF))) ∧
    (∀ (mem : List Nat) (result : Nat),
      append 0x1D800 mem result = (.unexpected .invalid_code_point, mem)) := by
  constructor
  · intro code_point mem result
    unfold append
    by_cases hv : is_code_point_valid code_point = true
    · have hnot : ¬ (0x10FFFF < code_point ∨
          (0xD800 ≤ code_point % 0x10000 ∧ code_point % 0x10000 ≤ 0xDFFF)) := by
        simp only [is_code_point_valid, is_surrogate, constants.code_point_max,
          constants.lead_surrogate_min, constants.trail_surrogate_max, Bool.and_eq_true,
          Bool.not_eq_true', decide_eq_true_eq, Bool.and_eq_false_iff,
          decide_eq_false_iff_not] at hv
        omega
      simp only [hv, Bool.not_true, Bool.false_eq_true, if_false, hnot, iff_false]
      split_ifs <;> simp
    · have hyes : 0x10FFFF < code_point ∨
          (0xD800 ≤ code_point % 0x10000 ∧ code_point % 0x10000 ≤ 0xDFFF) := by
        simp only [is_code_point_valid, is_surrogate, constants.code_point_max,
          constants.lead_surrogate_min, constants.trail_surrogate_max, Bool.and_eq_true,
          Bool.not_eq_true', decide_eq_true_eq, Bool.and_eq_false_iff,
          decide_eq_false_iff_not, not_and_or, not_or] at hv
        omega
      have hv' : is_code_point_valid code_point = false := by simpa using hv
      simp [hv', hyes]
  · intro mem result
    simp [append, is_code_point_valid, is_surrogate, constants.code_point_max,
      constants.lead_surrogate_min, constants.trail_surrogate_max]

/-- C3 fails on the code: on the lone byte C2 `next` returns `overflow`, yet
`is_valid` returns true, because the failed call leaves the cursor at the end. -/
theorem is_valid_accepts_truncated :
    next [0xC2] 0 1 = (.unexpected .overflow, 1) ∧
    find_invalid [0xC2] 0 1 = some 1 ∧
    is_valid [0xC2] 0 1 = some true := by
  decide

/-- C4 fails on the code: F0 9D A0 80 is the UTF-8 form of U+1D800 and `utf8to32`
returns `invalid_code_point` on it; the overlong C0 80 is decoded to the code point 0,
which `utf32to8` writes back as the single byte 00. -/
theorem utf8to32_rejects_U1D800 :
    utf8to32 [0xF0, 0x9D, 0xA0, 0x80] 0 4 [] 0 = some (.unexpected .invalid_code_point, []) ∧
    utf8to32 [0xC0, 0x80] 0 2 [] 0 = some (.value 1, [0]) ∧
    utf32to8 [0] [] 0 = (.value 1, [0]) := by
  decide

/-- C8 fails on the code: for every single byte in 0x80..0xBF or 0xF8..0xFF,
`validate_next` returns `overflow` (the fall-through of the length dispatch), not
`illegal_byte_sequence`. -/
theorem validate_next_invalid_lead_overflow :
    (List.range' 0x80 0x40 ++ List.range' 0xF8 8).all
      (fun b => decide (validate_next [b] 0 1 = (.unexpected .overflow, 0))) = true := by
  decide

/-- C9 fails on the code: on ED A0 80, which `next` rejects from position 0,
`find_invalid` returns position 2, inside the sequence; on the lone byte C2, which
`next` rejects, it returns the end position 1. -/
theorem find_invalid_inside_sequence :
    (next [0xED, 0xA0, 0x80] 0 3).1 = .unexpected .invalid_code_point ∧
    find_invalid [0xED, 0xA0, 0x80] 0 3 = some 2 ∧
    (next [0xC2] 0 1).1 = .unexpected .overflow ∧
    find_invalid [0xC2] 0 1 = some 1 := by
  decide

end utf8
end skyr

namespace skyr
namespace utf8

open details

theorem is_code_point_valid_iff (cp : Nat) :
    is_code_point_valid cp = true ↔
      cp ≤ 0x10FFFF ∧ ¬ (0xD800 ≤ cp % 0x10000 ∧ cp % 0x10000 ≤ 0xDFFF) := by
  simp only [is_code_point_valid, is_surrogate, constants.code_point_max,
    constants.lead_surrogate_min, constants.trail_surrogate_max, Bool.and_eq_true,
    Bool.not_eq_true', decide_eq_true_eq, Bool.and_eq_false_iff, decide_eq_false_iff_not]
  constructor
  · rintro ⟨h1, h2⟩
    exact ⟨h1, by omega⟩
  · rintro ⟨h1, h2⟩
    exact ⟨h1, by omega⟩

/-- C11: every value `validate_next` (the decoder behind `next`) returns successfully is
at most 0x10FFFF and outside 0xD800..0xDFFF; whenever the length dispatch assembles a
value that is a surrogate or above 0x10FFFF the call returns `invalid_code_point`; the
bytes ED A0 80 are rejected as `invalid_code_point`. -/
theorem validate_next_value_is_code_point :
    (∀ (buf : List Nat) (it last cp it' : Nat),
      validate_next buf it last = (.value cp, it') →
        cp ≤ 0x10FFFF ∧ ¬ (0xD800 ≤ cp ∧ cp ≤ 0xDFFF)) ∧
    (∀ (buf : List Nat) (it last cp it' : Nat), it ≠ last →
      (if sequence_length buf it = 1 then get_sequence_1 buf it last
        else if sequence_length buf it = 2 then get_sequence_2 buf it last
        else if sequence_length buf it = 3 then get_sequence_3 buf it last
        else if sequence_length buf it = 4 then get_sequence_4 buf it last
        else (.unexpected .overflow, it)) = (.value cp, it') →
      (0x10FFFF < cp ∨ (0xD800 ≤ cp ∧ cp ≤ 0xDFFF)) →
      validate_next buf it last = (.unexpected .invalid_code_point, it')) ∧
    validate_next [0xED, 0xA0, 0x80] 0 3 = (.unexpected .invalid_code_point, 2) := by
  refine ⟨?_, ?_, by decide⟩
  · intro buf it last cp it' h
    unfold validate_next at h
    by_cases hl : it = last
    · simp [hl] at h
    · simp only [hl, if_false] at h
      generalize (if sequence_length buf it = 1 then get_sequence_1 buf it last
        else if sequence_length buf it = 2 then get_sequence_2 buf it last
        else if sequence_length buf it = 3 then get_sequence_3 buf it last
        else if sequence_length buf it = 4 then get_sequence_4 buf it last
        else (.unexpected .overflow, it)) = r at h
      obtain ⟨res, it2⟩ := r
      cases res with
      | unexpected e => simp at h
      | value v =>
        simp only at h
        by_cases hv : is_code_point_valid v = true
        · simp only [hv, if_true] at h
          split_ifs at h
          · simp at h
          · simp only [Prod.mk.injEq, expected.value.injEq] at h
            obtain ⟨rfl, _⟩ := h
            have := (is_code_point_valid_iff v).mp hv
            omega
        · simp [hv] at h
  · intro buf it last cp it' hl hd hbad
    have hv : is_code_point_valid cp = false := by
      cases hc : is_code_point_valid cp with
      | false => rfl
      | true =>
        have := (is_code_point_valid_iff cp).mp hc
        omega
    unfold validate_next
    simp only [hl, if_false, hd, hv, Bool.false_eq_true]

/-- C11 at a concrete input: the byte 41 decodes to the code point 0x41, in range. -/
theorem validate_next_value_is_code_point_witness :
    validate_next [0x41] 0 1 = (.value 0x41, 1) ∧
    ((0x41 : Nat) ≤ 0x10FFFF ∧ ¬ (0xD800 ≤ (0x41 : Nat) ∧ (0x41 : Nat) ≤ 0xDFFF)) :=
  ⟨by decide, validate_next_value_is_code_point.1 [0x41] 0 1 0x41 1 (by decide)⟩

theorem store_length (mem : List Nat) (r v : Nat) : r < (store mem r v).length := by
  simp only [store, List.length_set, List.length_append, List.length_replicate]
  omega

theorem store_getD_self (mem : List Nat) (r v : Nat) : (store mem r v).getD r 0 = v := by
  have h := store_length mem r v
  simp only [store, List.length_set] at h
  simp only [store, List.getD_eq_getElem?_getD]
  rw [List.getElem?_set_self h]
  rfl

theorem store_getD_other (mem : List Nat) (r v i : Nat) (h : i ≠ r) :
    (store mem r v).getD i 0 = mem.getD i 0 := by
  simp only [store, List.getD_eq_getElem?_getD]
  rw [List.getElem?_set_ne (Ne.symm h)]
  by_cases hi : i < mem.length
  · rw [List.getElem?_append_left hi]
  · have hi' : mem.length ≤ i := by omega
    rw [List.getElem?_append_right hi', List.getElem?_eq_none hi']
    by_cases h2 : i - mem.length < (List.replicate (r + 1 - mem.length) 0).length
    · rw [List.getElem?_eq_getElem h2]
      simp
    · rw [List.getElem?_eq_none (by omega)]

theorem or_c0 : ∀ x, x < 32 → x ||| 0xc0 = 0xc0 + x := by decide
theorem or_e0 : ∀ x, x < 16 → x ||| 0xe0 = 0xe0 + x := by decide
theorem or_f0 : ∀ x, x < 8 → x ||| 0xf0 = 0xf0 + x := by decide
theorem or_80 : ∀ x, x < 64 → x ||| 0x80 = 0x80 + x := by decide

theorem and_3f (x : Nat) : x &&& 0x3f = x % 64 := Nat.and_pow_two_sub_one_eq_mod x 6

theorem trail_octet (x : Nat) : ((x &&& 0x3f) ||| 0x80) % 256 = 0x80 + x % 64 := by
  rw [and_3f, or_80 _ (Nat.mod_lt _ (by decide))]
  omega

/-- What `append` returns and writes for a code point it accepts, by magnitude. -/
theorem append_bytes_written (cp : Nat) (mem : List Nat) (result : Nat)
    (hv : is_code_point_valid cp = true) :
    (cp < 0x80 →
      append cp mem result = (.value (result + 1), store mem result cp)) ∧
    (0x80 ≤ cp → cp < 0x800 →
      cp / 64 < 32 ∧
      append cp mem result =
        (.value (result + 2),
          store (store mem result (0xC0 + cp / 64)) (result + 1) (0x80 + cp % 64))) ∧
    (0x800 ≤ cp → cp < 0x10000 →
      cp / 4096 < 16 ∧
      append cp mem result =
        (.value (result + 3),
          store (store (store mem result (0xE0 + cp / 4096))
            (result + 1) (0x80 + cp / 64 % 64)) (result + 2) (0x80 + cp % 64))) ∧
    (0x10000 ≤ cp →
      cp / 262144 < 8 ∧
      append cp mem result =
        (.value (result + 4),
          store (store (store (store mem result (0xF0 + cp / 262144))
            (result + 1) (0x80 + cp / 4096 % 64)) (result + 2) (0x80 + cp / 64 % 64))
            (result + 3) (0x80 + cp % 64))) := by
  have hmax : cp ≤ 0x10FFFF := ((is_code_point_valid_iff cp).mp hv).1
  refine ⟨?_, ?_, ?_, ?_⟩
  · intro h1
    have hm : cp % 256 = cp := by omega
    simp [append, hv, h1, hm]
  · intro h1 h2
    have hx : cp / 64 < 32 := by omega
    have h80 : ¬ cp < 0x80 := by omega
    have hb0 : ((cp >>> 6) ||| 0xc0) % 256 = 0xC0 + cp / 64 := by
      rw [Nat.shiftRight_eq_div_pow, or_c0 _ hx]
      omega
    refine ⟨hx, ?_⟩
    simp only [append, hv, Bool.not_true, Bool.false_eq_true, if_false, h80, h2, if_true,
      hb0, trail_octet]
  · intro h1 h2
    have hx : cp / 4096 < 16 := by omega
    have h80 : ¬ cp < 0x80 := by omega
    have h800 : ¬ cp < 0x800 := by omega
    have hb0 : ((cp >>> 12) ||| 0xe0) % 256 = 0xE0 + cp / 4096 := by
      rw [Nat.shiftRight_eq_div_pow, or_e0 _ hx]
      omega
    have hb1 : (((cp >>> 6) &&& 0x3f) ||| 0x80) % 256 = 0x80 + cp / 64 % 64 := by
      rw [trail_octet, Nat.shiftRight_eq_div_pow]
    refine ⟨hx, ?_⟩
    simp only [append, hv, Bool.not_true, Bool.false_eq_true, if_false, h80, h800, h2,
      if_true, hb0, hb1, trail_octet]
  · intro h1
    have hx : cp / 262144 < 8 := by omega
    have h80 : ¬ cp < 0x80 := by omega
    have h800 : ¬ cp < 0x800 := by omega
    have h10000 : ¬ cp < 0x10000 := by omega
    have hb0 : ((cp >>> 18) ||| 0xf0) % 256 = 0xF0 + cp / 262144 := by
      rw [Nat.shiftRight_eq_div_pow, or_f0 _ hx]
      omega
    have hb1 : (((cp >>> 12) &&& 0x3f) ||| 0x80) % 256 = 0x80 + cp / 4096 % 64 := by
      rw [trail_octet, Nat.shiftRight_eq_div_pow]
    have hb2 : (((cp >>> 6) &&& 0x3f) ||| 0x80) % 256 = 0x80 + cp / 64 % 64 := by
      rw [trail_octet, Nat.shiftRight_eq_div_pow]
    refine ⟨hx, ?_⟩
    simp only [append, hv, Bool.not_true, Bool.false_eq_true, if_false, h80, h800, h10000,
      hb0, hb1, hb2, trail_octet]

/-- C12: for every code point `append` accepts, the call returns the cursor advanced by
the minimal length (1 below 0x80, 2 below 0x800, 3 below 0x10000, 4 otherwise) and the
output memory is the input memory with exactly that many bytes stored from the cursor on:
the value itself, or a lead byte 110xxxxx / 1110xxxx / 11110xxx followed by continuation
bytes 10xxxxxx carrying the code point's bits, most significant first. -/
theorem append_minimal_form (cp : Nat) (mem : List Nat) (result : Nat)
    (hv : is_code_point_valid cp = true) :
    (cp < 0x80 →
      append cp mem result = (.value (result + 1), store mem result cp)) ∧
    (0x80 ≤ cp → cp < 0x800 →
      cp / 64 < 32 ∧
      append cp mem result =
        (.value (result + 2),
          store (store mem result (0xC0 + cp / 64)) (result + 1) (0x80 + cp % 64))) ∧
    (0x800 ≤ cp → cp < 0x10000 →
      cp / 4096 < 16 ∧
      append cp mem result =
        (.value (result + 3),
          store (store (store mem result (0xE0 + cp / 4096))
            (result + 1) (0x80 + cp / 64 % 64)) (result + 2) (0x80 + cp % 64))) ∧
    (0x10000 ≤ cp →
      cp / 262144 < 8 ∧
      append cp mem result =
        (.value (result + 4),
          store (store (store (store mem result (0xF0 + cp / 262144))
            (result + 1) (0x80 + cp / 4096 % 64)) (result + 2) (0x80 + cp / 64 % 64))
            (result + 3) (0x80 + cp % 64))) :=
  append_bytes_written cp mem result hv

/-- C12 at concrete inputs: U+20AC is written as E2 82 AC and U+1F600 as F0 9F 98 80,
each from cursor 0 into an empty output. -/
theorem append_minimal_form_witness :
    append 0x20AC [] 0 = (.value 3, [0xE2, 0x82, 0xAC]) ∧
    append 0x1F600 [] 0 = (.value 4, [0xF0, 0x9F, 0x98, 0x80]) :=
  ⟨((append_minimal_form 0x20AC [] 0 (by decide)).2.2.1 (by decide) (by decide)).2,
   ((append_minimal_form 0x1F600 [] 0 (by decide)).2.2.2 (by decide)).2⟩

theorem prior_loop_all_trail (buf : List Nat) (first : Nat) :
    ∀ (n it fuel : Nat), it = first + n → n + 1 ≤ fuel →
      (∀ j, first ≤ j → j ≤ it → is_trail (deref buf j) = true) →
      prior_loop buf first fuel it = some (some .invalid_code_point, first) := by
  intro n
  induction n with
  | zero =>
    intro it fuel hit hfuel htrail
    obtain ⟨f, rfl⟩ : ∃ f, fuel = f + 1 := ⟨fuel - 1, by omega⟩
    have h0 : it = first := by omega
    subst h0
    simp [prior_loop, htrail it (le_refl _) (le_refl _)]
  | succ n ih =>
    intro it fuel hit hfuel htrail
    obtain ⟨f, rfl⟩ : ∃ f, fuel = f + 1 := ⟨fuel - 1, by omega⟩
    have hne : it ≠ first := by omega
    have hstep := ih (it - 1) f (by omega) (by omega)
      (fun j h1 h2 => htrail j h1 (by omega))
    simp [prior_loop, htrail it (by omega) (le_refl _), hne, hstep]

/-- C13: `prior(it, first)` returns `overflow` when `it` equals `first`, and returns
`invalid_code_point` (leaving the cursor at `first`) when `first < it` and every byte at
the positions `first .. it - 1` is a continuation byte. -/
theorem prior_errors :
    (∀ (buf : List Nat) (it : Nat), prior buf it it = some (.unexpected .overflow, it)) ∧
    (∀ (buf : List Nat) (it first : Nat), first < it →
      (∀ j, first ≤ j → j < it → is_trail (deref buf j) = true) →
      prior buf it first = some (.unexpected .invalid_code_point, first)) := by
  constructor
  · intro buf it
    simp [prior]
  · intro buf it first hlt htrail
    have hne : it ≠ first := by omega
    have hloop := prior_loop_all_trail buf first (it - 1 - first) (it - 1) (it - first + 1)
      (by omega) (by omega) (fun j h1 h2 => htrail j h1 (by omega))
    simp [prior, hne, hloop]

/-- C13 at concrete inputs: `prior` at the start of a buffer, and after the two
continuation bytes 80 BF with no lead byte before them. -/
theorem prior_errors_witness :
    prior [0x41] 0 0 = some (.unexpected .overflow, 0) ∧
    prior [0x80, 0xBF, 0x41] 2 0 = some (.unexpected .invalid_code_point, 0) :=
  ⟨prior_errors.1 [0x41] 0,
   prior_errors.2 [0x80, 0xBF, 0x41] 2 0 (by decide)
    (by
      intro j h1 h2
      have hj : j = 0 ∨ j = 1 := by omega
      rcases hj with rfl | rfl <;> decide)⟩

theorem mask16_of_lt (u : Nat) (h : u < 0x10000) : mask16 u = u := by
  unfold mask16
  rw [Nat.and_comm]
  have := Nat.and_pow_two_sub_one_eq_mod u 16
  simp only [Nat.reducePow, Nat.add_one_sub_one] at this
  rw [this]
  omega

theorem is_lead_surrogate_iff (u : Nat) :
    is_lead_surrogate u = true ↔ 0xD800 ≤ u ∧ u ≤ 0xDBFF := by
  simp [is_lead_surrogate, constants.lead_surrogate_min, constants.lead_surrogate_max]

theorem is_trail_surrogate_iff (u : Nat) :
    is_trail_surrogate u = true ↔ 0xDC00 ≤ u ∧ u ≤ 0xDFFF := by
  simp [is_trail_surrogate, constants.trail_surrogate_min, constants.trail_surrogate_max]

theorem append_cases (cp : Nat) (mem : List Nat) (result : Nat) :
    append cp mem result = (.unexpected .invalid_code_point, mem) ∨
      ∃ r m, append cp mem result = (.value r, m) := by
  unfold append
  split_ifs
  · exact Or.inl rfl
  · exact Or.inr ⟨_, _, rfl⟩
  · exact Or.inr ⟨_, _, rfl⟩
  · exact Or.inr ⟨_, _, rfl⟩
  · exact Or.inr ⟨_, _, rfl⟩

theorem spec_ill_formed_at_iff (units : List Nat) (i : Nat) :
    spec_ill_formed_at units i = true ↔
      ((0xDC00 ≤ units.getD i 0 ∧ units.getD i 0 ≤ 0xDFFF) ∧
        (i = 0 ∨ ¬ (0xD800 ≤ units.getD (i - 1) 0 ∧ units.getD (i - 1) 0 ≤ 0xDBFF))) ∨
      ((0xD800 ≤ units.getD i 0 ∧ units.getD i 0 ≤ 0xDBFF) ∧
        (i + 1 = units.length ∨
          ¬ (0xDC00 ≤ units.getD (i + 1) 0 ∧ units.getD (i + 1) 0 ≤ 0xDFFF))) := by
  simp only [spec_ill_formed_at, Bool.or_eq_true, Bool.and_eq_true, decide_eq_true_eq,
    Bool.not_eq_true', decide_eq_false_iff_not]

theorem spec_ill_formed_at_shift (u : Nat) (l : List Nat) (i : Nat)
    (h : spec_ill_formed_at (u :: l) (i + 1) = true) : spec_ill_formed_at l i = true := by
  rw [spec_ill_formed_at_iff] at h ⊢
  simp only [List.getD_cons_succ, Nat.add_sub_cancel, List.length_cons,
    Nat.add_right_cancel_iff] at h
  rcases h with ⟨h1, h2⟩ | ⟨h1, h2⟩
  · left
    refine ⟨h1, ?_⟩
    rcases h2 with h2 | h2
    · omega
    · cases i with
      | zero => exact Or.inl rfl
      | succ k =>
        right
        simpa using h2
  · right
    exact ⟨h1, h2⟩

theorem utf16to8_ill_formed_aux :
    ∀ (n : Nat) (units mem : List Nat) (result : Nat), units.length ≤ n →
      (∀ u ∈ units, u < 0x10000) →
      (∃ i, i < units.length ∧ spec_ill_formed_at units i = true) →
      (utf16to8 units mem result).1 = .unexpected .invalid_code_point := by
  intro n
  induction n using Nat.strong_induction_on with
  | _ n ih =>
    intro units mem result hlen hsmall hbad
    obtain ⟨i, hi, hbad⟩ := hbad
    match units, hlen, hsmall, hi, hbad with
    | [], _, _, hi, _ => simp at hi
    | [u], _, hsmall, hi, hbad =>
      have hu := hsmall u (by simp)
      have hm : to_char16 u = u := by unfold to_char16; omega
      have hi0 : i = 0 := by simpa using hi
      subst hi0
      rw [spec_ill_formed_at_iff] at hbad
      simp only [List.getD_cons_zero, List.length_singleton] at hbad
      by_cases hl : is_lead_surrogate u = true
      · simp [utf16to8, mask16_of_lt u hu, hm, hl]
      · have ht : is_trail_surrogate u = true := by
          rw [is_trail_surrogate_iff]
          rw [is_lead_surrogate_iff] at hl
          rcases hbad with ⟨h1, _⟩ | ⟨h1, _⟩
          · exact h1
          · exact absurd h1 hl
        simp [utf16to8, mask16_of_lt u hu, hm, hl, ht]
    | u :: t :: rest, hlen, hsmall, hi, hbad =>
      have hu := hsmall u (by simp)
      have ht := hsmall t (by simp)
      have hm : to_char16 u = u := by unfold to_char16; omega
      have hrest : ∀ x ∈ rest, x < 0x10000 := fun x hx => hsmall x (by simp [hx])
      have htrest : ∀ x ∈ t :: rest, x < 0x10000 := fun x hx =>
        hsmall x (List.mem_cons_of_mem _ hx)
      simp only [List.length_cons] at hlen hi
      by_cases hl : is_lead_surrogate u = true
      · by_cases htr : is_trail_surrogate t = true
        · -- a well-formed pair: the ill-formed position lies in the rest
          have hl' := (is_lead_surrogate_iff u).mp hl
          have htr' := (is_trail_surrogate_iff t).mp htr
          have hi2 : 2 ≤ i := by
            rw [spec_ill_formed_at_iff] at hbad
            rcases Nat.lt_or_ge i 2 with hlt | hge
            · have : i = 0 ∨ i = 1 := by omega
              rcases this with rfl | rfl
              · simp only [List.getD_cons_zero, List.getD_cons_succ, List.length_cons] at hbad
                omega
              · simp only [List.getD_cons_zero, List.getD_cons_succ, List.length_cons,
                  Nat.sub_self] at hbad
                omega
            · exact hge
          obtain ⟨k, rfl⟩ : ∃ k, i = k + 1 + 1 := ⟨i - 2, by omega⟩
          have hbad' := spec_ill_formed_at_shift t rest k
            (spec_ill_formed_at_shift u (t :: rest) (k + 1) hbad)
          rcases append_cases (combine_surrogates u t) mem result with h | ⟨r, m, h⟩
          · simp [utf16to8, mask16_of_lt u hu, mask16_of_lt t ht, hm, hl, htr, h]
          · have := ih rest.length (by omega) rest m result (le_refl _) hrest
              ⟨k, by omega, hbad'⟩
            simp [utf16to8, mask16_of_lt u hu, mask16_of_lt t ht, hm, hl, htr, h, this]
        · simp [utf16to8, mask16_of_lt u hu, mask16_of_lt t ht, hm, hl, htr]
      · by_cases hut : is_trail_surrogate u = true
        · simp [utf16to8, mask16_of_lt u hu, hm, hl, hut]
        · have hl' := mt (is_lead_surrogate_iff u).mpr hl
          have hut' := mt (is_trail_surrogate_iff u).mpr hut
          have hi1 : 1 ≤ i := by
            rw [spec_ill_formed_at_iff] at hbad
            rcases Nat.eq_zero_or_pos i with rfl | hpos
            · simp only [List.getD_cons_zero] at hbad
              rcases hbad with ⟨h1, _⟩ | ⟨h1, _⟩
              · exact absurd h1 hut'
              · exact absurd h1 hl'
            · exact hpos
          obtain ⟨k, rfl⟩ : ∃ k, i = k + 1 := ⟨i - 1, by omega⟩
          have hbad' := spec_ill_formed_at_shift u (t :: rest) k hbad
          rcases append_cases u mem result with h | ⟨r, m, h⟩
          · simp [utf16to8, mask16_of_lt u hu, hm, hl, hut, h]
          · have := ih (t :: rest).length (by simp only [List.length_cons]; omega)
              (t :: rest) m result (le_refl _) htrest
              ⟨k, by simp only [List.length_cons]; omega, hbad'⟩
            simp [utf16to8, mask16_of_lt u hu, hm, hl, hut, h, this]

/-- C14: `utf16to8` returns `invalid_code_point` for every input of 16-bit units that
contains, at some position, a trail surrogate not immediately preceded by a lead
surrogate, a lead surrogate followed by a unit that is not a trail surrogate, or a lead
surrogate as the last unit. -/
theorem utf16to8_ill_formed (units mem : List Nat) (result : Nat)
    (hunits : ∀ u ∈ units, u < 0x10000)
    (hbad : ∃ i, i < units.length ∧ spec_ill_formed_at units i = true) :
    (utf16to8 units mem result).1 = .unexpected .invalid_code_point :=
  utf16to8_ill_formed_aux units.length units mem result (le_refl _) hunits hbad

/-- C14 at a concrete input: in 41 DC00 42 the trail surrogate at position 1 is not
preceded by a lead surrogate. -/
theorem utf16to8_ill_formed_witness :
    (utf16to8 [0x41, 0xDC00, 0x42] [] 0).1 = .unexpected .invalid_code_point :=
  utf16to8_ill_formed [0x41, 0xDC00, 0x42] [] 0 (by decide) ⟨1, by decide, by decide⟩

theorem increment_value_iff (buf : List Nat) (it last v it2 : Nat) :
    increment buf it last = (.value v, it2) ↔
      it + 1 ≠ last ∧ is_trail (deref buf (it + 1)) = true ∧ v = it + 1 ∧ it2 = it + 1 := by
  unfold increment
  by_cases h1 : it + 1 = last
  · simp [h1]
  · by_cases t1 : is_trail (deref buf (it + 1)) = true
    · simp only [h1, t1, if_false, Bool.not_true, Bool.false_eq_true, Prod.mk.injEq,
        expected.value.injEq, ne_eq, not_false_eq_true, true_and]
      constructor <;> rintro ⟨rfl, rfl⟩ <;> exact ⟨rfl, rfl⟩
    · simp [h1, t1]

theorem increment_result (buf : List Nat) (it last : Nat) :
    (∃ e, increment buf it last = (.unexpected e, it + 1)) ∨
      increment buf it last = (.value (it + 1), it + 1) := by
  unfold increment
  by_cases h1 : it + 1 = last
  · simp [h1]
  · by_cases t1 : is_trail (deref buf (it + 1)) = true
    · simp [h1, t1]
    · simp [h1, t1]

theorem get_sequence_1_value_iff (buf : List Nat) (it last cp it2 : Nat) :
    get_sequence_1 buf it last = (.value cp, it2) ↔
      it ≠ last ∧ it2 = it ∧ cp = mask8 (deref buf it) := by
  unfold get_sequence_1
  by_cases h0 : it = last
  · simp [h0]
  · simp only [h0, if_false, Prod.mk.injEq, expected.value.injEq, ne_eq, not_false_eq_true,
      true_and]
    constructor <;> rintro ⟨rfl, rfl⟩ <;> exact ⟨rfl, rfl⟩

theorem get_sequence_2_value_iff (buf : List Nat) (it last cp it2 : Nat) :
    get_sequence_2 buf it last = (.value cp, it2) ↔
      it ≠ last ∧ it + 1 ≠ last ∧ is_trail (deref buf (it + 1)) = true ∧ it2 = it + 1 ∧
      cp = ((mask8 (deref buf it) <<< 6) &&& 0x7ff) + (deref buf (it + 1) &&& 0x3f) := by
  unfold get_sequence_2
  by_cases h0 : it = last
  · simp [h0]
  · rcases increment_result buf it last with ⟨e, h1⟩ | h1
    · have hn : ¬ (it + 1 ≠ last ∧ is_trail (deref buf (it + 1)) = true) := by
        intro hc
        have := (increment_value_iff buf it last (it + 1) (it + 1)).mpr ⟨hc.1, hc.2, rfl, rfl⟩
        rw [h1] at this
        simp at this
      simp only [h0, if_false, h1]
      constructor
      · intro h; simp at h
      · rintro ⟨_, h2, h3, _⟩; exact absurd ⟨h2, h3⟩ hn
    · have hc := (increment_value_iff buf it last (it + 1) (it + 1)).mp h1
      simp only [h0, if_false, h1, Prod.mk.injEq, expected.value.injEq, ne_eq,
        not_false_eq_true, true_and, hc.1, hc.2.1]
      constructor <;> rintro ⟨rfl, rfl⟩ <;> exact ⟨rfl, rfl⟩

theorem increment_error_not (buf : List Nat) (it last : Nat) (e : unicode_errc)
    (h : increment buf it last = (.unexpected e, it + 1)) :
    ¬ (it + 1 ≠ last ∧ is_trail (deref buf (it + 1)) = true) := by
  intro hc
  have := (increment_value_iff buf it last (it + 1) (it + 1)).mpr ⟨hc.1, hc.2, rfl, rfl⟩
  rw [h] at this
  simp at this

theorem get_sequence_3_value_iff (buf : List Nat) (it last cp it2 : Nat) :
    get_sequence_3 buf it last = (.value cp, it2) ↔
      it ≠ last ∧ it + 1 ≠ last ∧ is_trail (deref buf (it + 1)) = true ∧
      it + 2 ≠ last ∧ is_trail (deref buf (it + 2)) = true ∧ it2 = it + 2 ∧
      cp = ((mask8 (deref buf it) <<< 12) &&& 0xffff) +
            ((mask8 (deref buf (it + 1)) <<< 6) &&& 0xfff) + (deref buf (it + 2) &&& 0x3f) := by
  unfold get_sequence_3
  by_cases h0 : it = last
  · simp [h0]
  · rcases increment_result buf it last with ⟨e, h1⟩ | h1
    · have hn := increment_error_not buf it last e h1
      simp only [h0, if_false, h1]
      constructor
      · intro h; simp at h
      · rintro ⟨_, h2, h3, _⟩; exact absurd ⟨h2, h3⟩ hn
    · have hc := (increment_value_iff buf it last (it + 1) (it + 1)).mp h1
      rcases increment_result buf (it + 1) last with ⟨e, h2⟩ | h2
      · have hn := increment_error_not buf (it + 1) last e h2
        simp only [h0, if_false, h1, h2]
        constructor
        · intro h; simp at h
        · rintro ⟨_, _, _, h4, h5, _⟩; exact absurd ⟨h4, h5⟩ hn
      · have hc2 := (increment_value_iff buf (it + 1) last (it + 1 + 1) (it + 1 + 1)).mp h2
        simp only [h0, if_false, h1, h2, Prod.mk.injEq, expected.value.injEq, ne_eq,
          not_false_eq_true, true_and, hc.1, hc.2.1, hc2.1, hc2.2.1]
        constructor <;> rintro ⟨rfl, rfl⟩ <;> exact ⟨rfl, rfl⟩

theorem get_sequence_4_value_iff (buf : List Nat) (it last cp it2 : Nat) :
    get_sequence_4 buf it last = (.value cp, it2) ↔
      it ≠ last ∧ it + 1 ≠ last ∧ is_trail (deref buf (it + 1)) = true ∧
      it + 2 ≠ last ∧ is_trail (deref buf (it + 2)) = true ∧
      it + 3 ≠ last ∧ is_trail (deref buf (it + 3)) = true ∧ it2 = it + 3 ∧
      cp = ((mask8 (deref buf it) <<< 18) &&& 0x1fffff) +
            ((mask8 (deref buf (it + 1)) <<< 12) &&& 0x3ffff) +
            ((mask8 (deref buf (it + 2)) <<< 6) &&& 0xfff) + (deref buf (it + 3) &&& 0x3f) := by
  unfold get_sequence_4
  by_cases h0 : it = last
  · simp [h0]
  · rcases increment_result buf it last with ⟨e, h1⟩ | h1
    · have hn := increment_error_not buf it last e h1
      simp only [h0, if_false, h1]
      constructor
      · intro h; simp at h
      · rintro ⟨_, h2, h3, _⟩; exact absurd ⟨h2, h3⟩ hn
    · have hc := (increment_value_iff buf it last (it + 1) (it + 1)).mp h1
      rcases increment_result buf (it + 1) last with ⟨e, h2⟩ | h2
      · have hn := increment_error_not buf (it + 1) last e h2
        simp only [h0, if_false, h1, h2]
        constructor
        · intro h; simp at h
        · rintro ⟨_, _, _, h4, h5, _⟩; exact absurd ⟨h4, h5⟩ hn
      · have hc2 := (increment_value_iff buf (it + 1) last (it + 1 + 1) (it + 1 + 1)).mp h2
        rcases increment_result buf (it + 1 + 1) last with ⟨e, h3⟩ | h3
        · have hn := increment_error_not buf (it + 1 + 1) last e h3
          simp only [h0, if_false, h1, h2, h3]
          constructor
          · intro h; simp at h
          · rintro ⟨_, _, _, _, _, h6, h7, _⟩; exact absurd ⟨h6, h7⟩ hn
        · have hc3 :=
            (increment_value_iff buf (it + 1 + 1) last (it + 1 + 1 + 1) (it + 1 + 1 + 1)).mp h3
          simp only [h0, if_false, h1, h2, h3, Prod.mk.injEq, expected.value.injEq, ne_eq,
            not_false_eq_true, true_and, hc.1, hc.2.1, hc2.1, hc2.2.1, hc3.1, hc3.2.1]
          constructor <;> rintro ⟨rfl, rfl⟩ <;> exact ⟨rfl, rfl⟩

theorem is_overlong_sequence_false (cp length : Nat) :
    is_overlong_sequence cp length = false := by
  simp [is_overlong_sequence]

theorem validate_next_value_iff (buf : List Nat) (it last cp it' : Nat) :
    validate_next buf it last = (.value cp, it') ↔
      it ≠ last ∧ is_code_point_valid cp = true ∧
      ∃ it2, it' = it2 + 1 ∧
        (if sequence_length buf it = 1 then get_sequence_1 buf it last
          else if sequence_length buf it = 2 then get_sequence_2 buf it last
          else if sequence_length buf it = 3 then get_sequence_3 buf it last
          else if sequence_length buf it = 4 then get_sequence_4 buf it last
          else (.unexpected .overflow, it)) = (.value cp, it2) := by
  unfold validate_next
  by_cases hl : it = last
  · simp [hl]
  · simp only [hl, if_false, ne_eq, not_false_eq_true, true_and]
    generalize (if sequence_length buf it = 1 then get_sequence_1 buf it last
      else if sequence_length buf it = 2 then get_sequence_2 buf it last
      else if sequence_length buf it = 3 then get_sequence_3 buf it last
      else if sequence_length buf it = 4 then get_sequence_4 buf it last
      else (.unexpected .overflow, it)) = r
    obtain ⟨res, it2⟩ := r
    cases res with
    | unexpected e => simp
    | value v =>
      by_cases hv : is_code_point_valid v = true
      · simp only [hv, if_true, is_overlong_sequence_false, Bool.false_eq_true, if_false,
          Prod.mk.injEq, expected.value.injEq]
        constructor
        · rintro ⟨rfl, rfl⟩
          exact ⟨hv, it2, rfl, rfl, rfl⟩
        · rintro ⟨_, it3, rfl, rfl, rfl⟩
          exact ⟨rfl, rfl⟩
      · simp only [hv, Bool.false_eq_true, if_false, Prod.mk.injEq, expected.value.injEq]
        constructor
        · intro h; simp at h
        · rintro ⟨hv', it3, _, rfl, _⟩
          exact absurd hv' hv

/-- A successful `validate_next` moves the cursor forward by the sequence length, which
is between 1 and 4, and stays within the bound when it started within it; the same call
with any bound at or after the new cursor returns the same result. -/
theorem validate_next_value_advance (buf : List Nat) (it last cp it' : Nat)
    (h : validate_next buf it last = (.value cp, it')) :
    1 ≤ sequence_length buf it ∧ sequence_length buf it ≤ 4 ∧
    it' = it + sequence_length buf it ∧ (it ≤ last → it' ≤ last) ∧
    (∀ p, it' ≤ p → validate_next buf it p = (.value cp, it')) := by
  obtain ⟨hl, hv, it2, rfl, hd⟩ := (validate_next_value_iff buf it last cp it').mp h
  rcases sequence_length_cases buf it with hL | hL | hL | hL | hL
  · simp [hL] at hd
  · simp only [hL, if_true] at hd
    obtain ⟨h0, rfl, hcp⟩ := (get_sequence_1_value_iff buf it last cp it2).mp hd
    refine ⟨by omega, by omega, by omega, fun _ => by omega, fun p hp => ?_⟩
    refine (validate_next_value_iff buf it2 p cp (it2 + 1)).mpr
      ⟨by omega, hv, it2, rfl, ?_⟩
    simp only [hL, if_true]
    exact (get_sequence_1_value_iff buf it2 p cp it2).mpr ⟨by omega, rfl, hcp⟩
  · simp only [hL, if_true, OfNat.ofNat_ne_one, if_false] at hd
    obtain ⟨h0, h1, t1, rfl, hcp⟩ := (get_sequence_2_value_iff buf it last cp it2).mp hd
    refine ⟨by omega, by omega, by omega, fun _ => by omega, fun p hp => ?_⟩
    refine (validate_next_value_iff buf it p cp (it + 1 + 1)).mpr
      ⟨by omega, hv, it + 1, rfl, ?_⟩
    simp only [hL, if_true, OfNat.ofNat_ne_one, if_false]
    exact (get_sequence_2_value_iff buf it p cp (it + 1)).mpr
      ⟨by omega, by omega, t1, rfl, hcp⟩
  · have e1 : ¬ (3 : Nat) = 1 := by decide
    have e2 : ¬ (3 : Nat) = 2 := by decide
    simp only [hL, if_true, e1, e2, if_false] at hd
    obtain ⟨h0, h1, t1, h2, t2, rfl, hcp⟩ :=
      (get_sequence_3_value_iff buf it last cp it2).mp hd
    refine ⟨by omega, by omega, by omega, fun _ => by omega, fun p hp => ?_⟩
    refine (validate_next_value_iff buf it p cp (it + 2 + 1)).mpr
      ⟨by omega, hv, it + 2, rfl, ?_⟩
    simp only [hL, if_true, e1, e2, if_false]
    exact (get_sequence_3_value_iff buf it p cp (it + 2)).mpr
      ⟨by omega, by omega, t1, by omega, t2, rfl, hcp⟩
  · have e1 : ¬ (4 : Nat) = 1 := by decide
    have e2 : ¬ (4 : Nat) = 2 := by decide
    have e3 : ¬ (4 : Nat) = 3 := by decide
    simp only [hL, if_true, e1, e2, e3, if_false] at hd
    obtain ⟨h0, h1, t1, h2, t2, h3, t3, rfl, hcp⟩ :=
      (get_sequence_4_value_iff buf it last cp it2).mp hd
    refine ⟨by omega, by omega, by omega, fun _ => by omega, fun p hp => ?_⟩
    refine (validate_next_value_iff buf it p cp (it + 3 + 1)).mpr
      ⟨by omega, hv, it + 3, rfl, ?_⟩
    simp only [hL, if_true, e1, e2, e3, if_false]
    exact (get_sequence_4_value_iff buf it p cp (it + 3)).mpr
      ⟨by omega, by omega, t1, by omega, t2, by omega, t3, rfl, hcp⟩

theorem next_result (buf : List Nat) (it last : Nat) :
    (∃ e it1, next buf it last = (.unexpected e, it1)) ∨
      ∃ cp it1, next buf it last = (.value cp, it1) := by
  cases hr : next buf it last with
  | mk res it1 =>
    cases res with
    | value cp => exact Or.inr ⟨cp, it1, rfl⟩
    | unexpected e => exact Or.inl ⟨e, it1, rfl⟩

theorem utf8to32_loop_fuel_mono (buf : List Nat) (last : Nat) :
    ∀ (fuel it : Nat) (mem : List Nat) (result : Nat) (x : expected Nat × List Nat),
      utf8to32_loop buf last fuel it mem result = some x →
      ∀ fuel', fuel ≤ fuel' → utf8to32_loop buf last fuel' it mem result = some x := by
  intro fuel
  induction fuel with
  | zero => intro it mem result x h; simp [utf8to32_loop] at h
  | succ f ih =>
    intro it mem result x h fuel' hle
    obtain ⟨g, rfl⟩ : ∃ g, fuel' = g + 1 := ⟨fuel' - 1, by omega⟩
    by_cases hl : it = last
    · simpa [utf8to32_loop, hl] using h
    · rcases next_result buf it last with ⟨e, it1, hn⟩ | ⟨cp, it1, hn⟩
      · simpa [utf8to32_loop, hl, hn] using h
      · simp only [utf8to32_loop, hl, if_false, hn] at h ⊢
        exact ih it1 _ _ x h g (by omega)

theorem utf8to32_loop_total (buf : List Nat) (last : Nat) :
    ∀ (fuel it : Nat) (mem : List Nat) (result : Nat), it ≤ last → last - it + 1 ≤ fuel →
      ∃ x, utf8to32_loop buf last fuel it mem result = some x := by
  intro fuel
  induction fuel with
  | zero => intro it mem result _ h; omega
  | succ f ih =>
    intro it mem result hle hfuel
    by_cases hl : it = last
    · exact ⟨(.value result, mem), by simp [utf8to32_loop, hl]⟩
    · rcases next_result buf it last with ⟨e, it1, hn⟩ | ⟨cp, it1, hn⟩
      · exact ⟨(.unexpected e, mem), by simp [utf8to32_loop, hl, hn]⟩
      · have hadv := validate_next_value_advance buf it last cp it1 hn
        simp only [utf8to32_loop, hl, if_false, hn]
        exact ih it1 _ _ (hadv.2.2.2.1 hle) (by omega)

theorem utf8to32_loop_error_prefix (buf : List Nat) (last : Nat) :
    ∀ (fuel it : Nat) (mem : List Nat) (result : Nat) (e : unicode_errc) (mem' : List Nat),
      it ≤ last →
      utf8to32_loop buf last fuel it mem result = some (.unexpected e, mem') →
      ∃ p res, it ≤ p ∧ p < last ∧
        utf8to32_loop buf p fuel it mem result = some (.value res, mem') ∧
        (next buf p last).1 = .unexpected e := by
  intro fuel
  induction fuel with
  | zero => intro it mem result e mem' _ h; simp [utf8to32_loop] at h
  | succ f ih =>
    intro it mem result e mem' hle h
    by_cases hl : it = last
    · simp [utf8to32_loop, hl] at h
    · rcases next_result buf it last with ⟨e1, it1, hn⟩ | ⟨cp, it1, hn⟩
      · simp only [utf8to32_loop, hl, if_false, hn, Option.some.injEq, Prod.mk.injEq,
          expected.unexpected.injEq] at h
        obtain ⟨rfl, rfl⟩ := h
        exact ⟨it, result, le_refl _, by omega, by simp [utf8to32_loop], by rw [hn]⟩
      · have hadv := validate_next_value_advance buf it last cp it1 hn
        simp only [utf8to32_loop, hl, if_false, hn] at h
        obtain ⟨p, res, hp1, hp2, hrun, herr⟩ :=
          ih it1 _ _ e mem' (hadv.2.2.2.1 hle) h
        refine ⟨p, res, by omega, hp2, ?_, herr⟩
        have hnp : next buf it p = (.value cp, it1) := hadv.2.2.2.2 p hp1
        have hne : it ≠ p := by omega
        simp only [utf8to32_loop, hne, if_false, hnp]
        exact hrun

theorem utf8to32_error_prefix (buf : List Nat) (first last : Nat) (mem : List Nat)
    (result : Nat) (e : unicode_errc) (mem' : List Nat) (hle : first ≤ last)
    (h : utf8to32 buf first last mem result = some (.unexpected e, mem')) :
    ∃ p res, first ≤ p ∧ p < last ∧
      utf8to32 buf first p mem result = some (.value res, mem') ∧
      (next buf p last).1 = .unexpected e := by
  obtain ⟨p, res, hp1, hp2, hrun, herr⟩ :=
    utf8to32_loop_error_prefix buf last _ first mem result e mem' hle h
  refine ⟨p, res, hp1, hp2, ?_, herr⟩
  obtain ⟨x, hx⟩ := utf8to32_loop_total buf p (p - first + 1) first mem result hp1 (le_refl _)
  have := utf8to32_loop_fuel_mono buf p _ first mem result x hx (last - first + 1) (by omega)
  rw [hrun] at this
  unfold utf8to32
  rw [hx, ← Option.some.inj this]

theorem utf8to16_loop_fuel_mono (buf : List Nat) (last : Nat) :
    ∀ (fuel it : Nat) (mem : List Nat) (result : Nat) (x : expected Nat × List Nat),
      utf8to16_loop buf last fuel it mem result = some x →
      ∀ fuel', fuel ≤ fuel' → utf8to16_loop buf last fuel' it mem result = some x := by
  intro fuel
  induction fuel with
  | zero => intro it mem result x h; simp [utf8to16_loop] at h
  | succ f ih =>
    intro it mem result x h fuel' hle
    obtain ⟨g, rfl⟩ : ∃ g, fuel' = g + 1 := ⟨fuel' - 1, by omega⟩
    by_cases hl : it = last
    · simpa [utf8to16_loop, hl] using h
    · rcases next_result buf it last with ⟨e, it1, hn⟩ | ⟨cp, it1, hn⟩
      · simpa [utf8to16_loop, hl, hn] using h
      · simp only [utf8to16_loop, hl, if_false, hn] at h ⊢
        split_ifs at h ⊢
        · exact ih it1 _ _ x h g (by omega)
        · exact ih it1 _ _ x h g (by omega)

theorem utf8to16_loop_total (buf : List Nat) (last : Nat) :
    ∀ (fuel it : Nat) (mem : List Nat) (result : Nat), it ≤ last → last - it + 1 ≤ fuel →
      ∃ x, utf8to16_loop buf last fuel it mem result = some x := by
  intro fuel
  induction fuel with
  | zero => intro it mem result _ h; omega
  | succ f ih =>
    intro it mem result hle hfuel
    by_cases hl : it = last
    · exact ⟨(.value result, mem), by simp [utf8to16_loop, hl]⟩
    · rcases next_result buf it last with ⟨e, it1, hn⟩ | ⟨cp, it1, hn⟩
      · exact ⟨(.unexpected e, mem), by simp [utf8to16_loop, hl, hn]⟩
      · have hadv := validate_next_value_advance buf it last cp it1 hn
        simp only [utf8to16_loop, hl, if_false, hn]
        split_ifs
        · exact ih it1 _ _ (hadv.2.2.2.1 hle) (by omega)
        · exact ih it1 _ _ (hadv.2.2.2.1 hle) (by omega)

theorem utf8to16_loop_error_prefix (buf : List Nat) (last : Nat) :
    ∀ (fuel it : Nat) (mem : List Nat) (result : Nat) (e : unicode_errc) (mem' : List Nat),
      it ≤ last →
      utf8to16_loop buf last fuel it mem result = some (.unexpected e, mem') →
      ∃ p res, it ≤ p ∧ p < last ∧
        utf8to16_loop buf p fuel it mem result = some (.value res, mem') ∧
        (next buf p last).1 = .unexpected e := by
  intro fuel
  induction fuel with
  | zero => intro it mem result e mem' _ h; simp [utf8to16_loop] at h
  | succ f ih =>
    intro it mem result e mem' hle h
    by_cases hl : it = last
    · simp [utf8to16_loop, hl] at h
    · rcases next_result buf it last with ⟨e1, it1, hn⟩ | ⟨cp, it1, hn⟩
      · simp only [utf8to16_loop, hl, if_false, hn, Option.some.injEq, Prod.mk.injEq,
          expected.unexpected.injEq] at h
        obtain ⟨rfl, rfl⟩ := h
        exact ⟨it, result, le_refl _, by omega, by simp [utf8to16_loop], by rw [hn]⟩
      · have hadv := validate_next_value_advance buf it last cp it1 hn
        simp only [utf8to16_loop, hl, if_false, hn] at h
        have hstep : ∀ (m : List Nat) (r : Nat),
            utf8to16_loop buf last f it1 m r = some (.unexpected e, mem') →
            ∃ p res, it ≤ p ∧ p < last ∧ it1 ≤ p ∧
              utf8to16_loop buf p f it1 m r = some (.value res, mem') ∧
              (next buf p last).1 = .unexpected e := by
          intro m r hm
          obtain ⟨p, res, hp1, hp2, hrun, herr⟩ := ih it1 m r e mem' (hadv.2.2.2.1 hle) hm
          exact ⟨p, res, by omega, hp2, hp1, hrun, herr⟩
        split_ifs at h with hbig
        · obtain ⟨p, res, hp0, hp2, hp1, hrun, herr⟩ := hstep _ _ h
          refine ⟨p, res, hp0, hp2, ?_, herr⟩
          have hnp : next buf it p = (.value cp, it1) := hadv.2.2.2.2 p hp1
          have hne : it ≠ p := by omega
          simp only [utf8to16_loop, hne, if_false, hnp, hbig, if_true]
          exact hrun
        · obtain ⟨p, res, hp0, hp2, hp1, hrun, herr⟩ := hstep _ _ h
          refine ⟨p, res, hp0, hp2, ?_, herr⟩
          have hnp : next buf it p = (.value cp, it1) := hadv.2.2.2.2 p hp1
          have hne : it ≠ p := by omega
          simp only [utf8to16_loop, hne, if_false, hnp, hbig]
          exact hrun

theorem utf8to16_error_prefix (buf : List Nat) (first last : Nat) (mem : List Nat)
    (result : Nat) (e : unicode_errc) (mem' : List Nat) (hle : first ≤ last)
    (h : utf8to16 buf first last mem result = some (.unexpected e, mem')) :
    ∃ p res, first ≤ p ∧ p < last ∧
      utf8to16 buf first p mem result = some (.value res, mem') ∧
      (next buf p last).1 = .unexpected e := by
  obtain ⟨p, res, hp1, hp2, hrun, herr⟩ :=
    utf8to16_loop_error_prefix buf last _ first mem result e mem' hle h
  refine ⟨p, res, hp1, hp2, ?_, herr⟩
  obtain ⟨x, hx⟩ := utf8to16_loop_total buf p (p - first + 1) first mem result hp1 (le_refl _)
  have := utf8to16_loop_fuel_mono buf p _ first mem result x hx (last - first + 1) (by omega)
  rw [hrun] at this
  unfold utf8to16
  rw [hx, ← Option.some.inj this]

theorem append_error_unchanged (cp : Nat) (mem : List Nat) (result : Nat) (e : unicode_errc)
    (h : (append cp mem result).1 = .unexpected e) :
    append cp mem result = (.unexpected e, mem) := by
  rcases append_cases cp mem result with h1 | ⟨r, m, h1⟩
  · rw [h1] at h ⊢
    simp only [expected.unexpected.injEq] at h
    rw [h]
  · rw [h1] at h
    simp at h

theorem utf32to8_error_prefix :
    ∀ (units mem : List Nat) (result : Nat) (e : unicode_errc) (mem' : List Nat),
      utf32to8 units mem result = (.unexpected e, mem') →
      ∃ pre bad rest res, units = pre ++ bad :: rest ∧
        utf32to8 pre mem result = (.value res, mem') ∧
        append bad mem' res = (.unexpected e, mem') := by
  intro units
  induction units with
  | nil => intro mem result e mem' h; simp [utf32to8] at h
  | cons cp rest ih =>
    intro mem result e mem' h
    rcases append_cases cp mem result with h1 | ⟨r, m, h1⟩
    · simp only [utf32to8, h1, Prod.mk.injEq, expected.unexpected.injEq] at h
      obtain ⟨rfl, rfl⟩ := h
      exact ⟨[], cp, rest, result, rfl, by simp [utf32to8], h1⟩
    · simp only [utf32to8, h1] at h
      obtain ⟨pre, bad, tl, res, hsplit, hpre, hbad⟩ := ih m r e mem' h
      exact ⟨cp :: pre, bad, tl, res, by simp [hsplit], by simp [utf32to8, h1, hpre], hbad⟩

theorem utf16to8_cons_not_lead (u : Nat) (rest mem : List Nat) (result : Nat)
    (hl : ¬ is_lead_surrogate (to_char16 (mask16 u)) = true) :
    utf16to8 (u :: rest) mem result =
      if is_trail_surrogate (to_char16 (mask16 u)) then (.unexpected .invalid_code_point, mem)
      else
        match append (mask16 u) mem result with
        | (.unexpected e, mem) => (.unexpected e, mem)
        | (.value _, mem) => utf16to8 rest mem result := by
  cases rest <;> simp [utf16to8, hl]

theorem utf16to8_error_prefix_aux :
    ∀ (n : Nat) (units mem : List Nat) (result : Nat) (e : unicode_errc) (mem' : List Nat),
      units.length ≤ n →
      utf16to8 units mem result = (.unexpected e, mem') →
      ∃ pre el rest, units = pre ++ el ++ rest ∧
        ((∃ u, el = [u] ∧ (is_lead_surrogate (to_char16 (mask16 u)) = true → rest = [])) ∨
         (∃ u t, el = [u, t] ∧ is_lead_surrogate (to_char16 (mask16 u)) = true)) ∧
        utf16to8 pre mem result = (.value result, mem') ∧
        utf16to8 el mem' result = (.unexpected e, mem') := by
  intro n
  induction n using Nat.strong_induction_on with
  | _ n ih =>
    intro units mem result e mem' hlen h
    match units, hlen, h with
    | [], _, h => simp [utf16to8] at h
    | u :: rest, hlen, h =>
      by_cases hl : is_lead_surrogate (to_char16 (mask16 u)) = true
      · match rest, hlen, h with
        | [], _, h =>
          have hmem : mem = mem' := by
            simp only [utf16to8, hl, if_true, Prod.mk.injEq] at h
            exact h.2
          subst hmem
          exact ⟨[], [u], [], rfl, Or.inl ⟨u, rfl, fun _ => rfl⟩, by simp [utf16to8], h⟩
        | t :: rest', hlen, h =>
          by_cases htr : is_trail_surrogate (mask16 t) = true
          · rcases append_cases (combine_surrogates (mask16 u) (mask16 t)) mem result
              with h1 | ⟨r, m, h1⟩
            · simp only [utf16to8, hl, htr, if_true, h1] at h
              have hmem : mem = mem' := (Prod.mk.inj h).2
              subst hmem
              refine ⟨[], [u, t], rest', rfl, Or.inr ⟨u, t, rfl, hl⟩, by simp [utf16to8], ?_⟩
              simp only [utf16to8, hl, htr, if_true, h1]
              exact h
            · have hrec : utf16to8 rest' m result = (.unexpected e, mem') := by
                simpa only [utf16to8, hl, htr, if_true, h1] using h
              simp only [List.length_cons] at hlen
              obtain ⟨pre, el, tl, hsplit, hel, hpre, hfail⟩ :=
                ih rest'.length (by omega) rest' m result e mem' (le_refl _) hrec
              refine ⟨u :: t :: pre, el, tl, by simp [hsplit], hel, ?_, hfail⟩
              simp only [utf16to8, hl, htr, if_true, h1]
              exact hpre
          · simp only [utf16to8, hl, htr, if_true, Bool.false_eq_true, if_false] at h
            have hmem : mem = mem' := (Prod.mk.inj h).2
            subst hmem
            refine ⟨[], [u, t], rest', rfl, Or.inr ⟨u, t, rfl, hl⟩, by simp [utf16to8], ?_⟩
            simp only [utf16to8, hl, htr, if_true, Bool.false_eq_true, if_false]
            exact h
      · rw [utf16to8_cons_not_lead u rest mem result hl] at h
        by_cases hut : is_trail_surrogate (to_char16 (mask16 u)) = true
        · simp only [hut, if_true] at h
          have hmem : mem = mem' := (Prod.mk.inj h).2
          subst hmem
          refine ⟨[], [u], rest, rfl, Or.inl ⟨u, rfl, fun hc => absurd hc hl⟩,
            by simp [utf16to8], ?_⟩
          rw [utf16to8_cons_not_lead u [] mem result hl]
          simp only [hut, if_true]
          exact h
        · rcases append_cases (mask16 u) mem result with h1 | ⟨r, m, h1⟩
          · simp only [hut, Bool.false_eq_true, if_false, h1] at h
            have hmem : mem = mem' := (Prod.mk.inj h).2
            subst hmem
            refine ⟨[], [u], rest, rfl, Or.inl ⟨u, rfl, fun hc => absurd hc hl⟩,
              by simp [utf16to8], ?_⟩
            rw [utf16to8_cons_not_lead u [] mem result hl]
            simp only [hut, Bool.false_eq_true, if_false, h1]
            exact h
          · have hrec : utf16to8 rest m result = (.unexpected e, mem') := by
              simpa only [hut, Bool.false_eq_true, if_false, h1] using h
            simp only [List.length_cons] at hlen
            obtain ⟨pre, el, tl, hsplit, hel, hpre, hfail⟩ :=
              ih rest.length (by omega) rest m result e mem' (le_refl _) hrec
            refine ⟨u :: pre, el, tl, by simp [hsplit], hel, ?_, hfail⟩
            rw [utf16to8_cons_not_lead u pre mem result hl]
            simp only [hut, Bool.false_eq_true, if_false, h1]
            exact hpre

/-- C15 fails on the code: for the valid UTF-8 input 41 42, `utf8to16` gives the units
41 42, and `utf16to8` on them writes both bytes at the same output position and returns
the cursor it was given: the output holds the single byte 42 and the cursor is 0, not 2.
The sibling `utf32to8` on the same two code points writes 41 42 and returns cursor 2. -/
theorem utf16to8_cursor_not_advanced :
    utf8to16 [0x41, 0x42] 0 2 [] 0 = some (.value 2, [0x41, 0x42]) ∧
    utf16to8 [0x41, 0x42] [] 0 = (.value 0, [0x42]) ∧
    utf32to8 [0x41, 0x42] [] 0 = (.value 2, [0x41, 0x42]) := by
  decide

/-- C16 as stated fails on the code: on the bytes 41 FF `utf8to32` returns an error and
has already written the code point 0x41 to its output. -/
theorem utf8to32_writes_before_error :
    utf8to32 [0x41, 0xFF] 0 2 [] 0 = some (.unexpected .overflow, [0x41]) ∧
    ([0x41] : List Nat) ≠ [] := by
  decide

/-- C16 as amended: `append` writes nothing when it returns an error; when `utf8to32`,
`utf8to16`, `utf32to8` or `utf16to8` returns an error, the input splits into a proper
prefix that the same function converts successfully, leaving exactly the output the
failed call has left, and a remainder whose first element raises the error without
changing that output. The first element is the sequence `next` decodes at the split
position for `utf8to32` and `utf8to16`, the code point `append` receives for `utf32to8`,
and for `utf16to8` the units one turn of its loop reads: a lead surrogate with the unit
after it, or else a single unit (a lead surrogate alone only at the end of the input);
it raises the error when `next`, `append` or `utf16to8` returns that error on it, from
the output the prefix has left and leaving that output as it is. -/
theorem codec_error_keeps_converted_prefix :
    (∀ (cp : Nat) (mem : List Nat) (result : Nat) (e : unicode_errc),
      (append cp mem result).1 = .unexpected e →
      append cp mem result = (.unexpected e, mem)) ∧
    (∀ (buf : List Nat) (first last : Nat) (mem : List Nat) (result : Nat)
       (e : unicode_errc) (mem' : List Nat), first ≤ last →
      utf8to32 buf first last mem result = some (.unexpected e, mem') →
      ∃ p res, first ≤ p ∧ p < last ∧
        utf8to32 buf first p mem result = some (.value res, mem') ∧
        (next buf p last).1 = .unexpected e) ∧
    (∀ (buf : List Nat) (first last : Nat) (mem : List Nat) (result : Nat)
       (e : unicode_errc) (mem' : List Nat), first ≤ last →
      utf8to16 buf first last mem result = some (.unexpected e, mem') →
      ∃ p res, first ≤ p ∧ p < last ∧
        utf8to16 buf first p mem result = some (.value res, mem') ∧
        (next buf p last).1 = .unexpected e) ∧
    (∀ (units mem : List Nat) (result : Nat) (e : unicode_errc) (mem' : List Nat),
      utf32to8 units mem result = (.unexpected e, mem') →
      ∃ pre bad rest res, units = pre ++ bad :: rest ∧
        utf32to8 pre mem result = (.value res, mem') ∧
        append bad mem' res = (.unexpected e, mem')) ∧
    (∀ (units mem : List Nat) (result : Nat) (e : unicode_errc) (mem' : List Nat),
      utf16to8 units mem result = (.unexpected e, mem') →
      ∃ pre el rest, units = pre ++ el ++ rest ∧
        ((∃ u, el = [u] ∧ (is_lead_surrogate (to_char16 (mask16 u)) = true → rest = [])) ∨
         (∃ u t, el = [u, t] ∧ is_lead_surrogate (to_char16 (mask16 u)) = true)) ∧
        utf16to8 pre mem result = (.value result, mem') ∧
        utf16to8 el mem' result = (.unexpected e, mem')) :=
  ⟨append_error_unchanged,
   fun buf first last mem result e mem' hle h =>
     utf8to32_error_prefix buf first last mem result e mem' hle h,
   fun buf first last mem result e mem' hle h =>
     utf8to16_error_prefix buf first last mem result e mem' hle h,
   utf32to8_error_prefix,
   fun units mem result e mem' h =>
     utf16to8_error_prefix_aux units.length units mem result e mem' (le_refl _) h⟩

/-- C16 as amended, at the input 41 FF: the output [0x41] of the failed `utf8to32` call
is what `utf8to32` writes on a proper prefix of the input, and `next` fails there. -/
theorem codec_error_keeps_converted_prefix_witness :
    ∃ p res, 0 ≤ p ∧ p < 2 ∧
      utf8to32 [0x41, 0xFF] 0 p [] 0 = some (.value res, [0x41]) ∧
      (next [0x41, 0xFF] p 2).1 = .unexpected .overflow :=
  codec_error_keeps_converted_prefix.2.1 [0x41, 0xFF] 0 2 [] 0 .overflow [0x41]
    (by decide) (by decide)

end utf8
end skyr

namespace network
namespace whatwg

open detail

theorem span_cases (buf : List Nat) (p : uri_part) (hp : p.first ≤ p.last) :
    (¬ p.first < p.last ∧ to_string_view buf p = ⟨none, 0⟩) ∨
    (p.first < p.last ∧ to_string_view buf p = ⟨some p.first, p.last - p.first⟩ ∧
      p.last - p.first ≠ 0 ∧ p.first + (p.last - p.first) = p.last) := by
  by_cases e : p.first = p.last
  · left
    refine ⟨by omega, ?_⟩
    simp [to_string_view, uri_part.empty, e, string_view.null]
  · right
    refine ⟨by omega, ?_, by omega, by omega⟩
    simp [to_string_view, uri_part.empty, e]

/-- C19: for every url value whose present user-info, host and port spans are well-formed
ranges, `authority()` is the view the claim describes (`spec_authority`), and
`has_authority()` is true exactly when the host is present; with no host the authority
is the empty view. -/
theorem authority_eq_spec (u : url)
    (hi : spec_span_ok u.url_parts_.user_info) (hh : spec_span_ok u.url_parts_.host)
    (hp : spec_span_ok u.url_parts_.port) :
    u.authority = spec_authority u.url_parts_ ∧
    u.has_authority = u.url_parts_.host.isSome ∧
    (u.url_parts_.host = none → u.authority = string_view.null ∧ u.has_authority = false) := by
  obtain ⟨buf, parts⟩ := u
  obtain ⟨scheme, user_info, host, port, path, query, fragment⟩ := parts
  simp only [spec_span_ok] at hi hh hp
  refine ⟨?_, rfl, ?_⟩
  · cases host with
    | none => simp [url.authority, url.has_host, spec_authority]
    | some h =>
      rcases span_cases buf h (hh h rfl) with ⟨a1, a2⟩ | ⟨a1, a2, a3, a4⟩
      all_goals
        cases user_info with
        | none =>
          cases port with
          | none =>
            simp [url.authority, url.has_host, url.has_user_info, url.has_port, url.host,
              url.port, url.user_info, spec_authority, string_view.is_empty,
              string_view.null, url.view_begin, url.view_end, url.ptr_distance,
              Option.filter, *]
          | some p =>
            rcases span_cases buf p (hp p rfl) with ⟨b1, b2⟩ | ⟨b1, b2, b3, b4⟩
            all_goals
              simp [url.authority, url.has_host, url.has_user_info, url.has_port, url.host,
                url.port, url.user_info, spec_authority, string_view.is_empty,
                string_view.null, url.view_begin, url.view_end, url.ptr_distance,
                Option.filter, *]
        | some i =>
          rcases span_cases buf i (hi i rfl) with ⟨c1, c2⟩ | ⟨c1, c2, c3, c4⟩
          all_goals
            cases port with
            | none =>
              simp [url.authority, url.has_host, url.has_user_info, url.has_port, url.host,
                url.port, url.user_info, spec_authority, string_view.is_empty,
                string_view.null, url.view_begin, url.view_end, url.ptr_distance,
                Option.filter, *]
            | some p =>
              rcases span_cases buf p (hp p rfl) with ⟨b1, b2⟩ | ⟨b1, b2, b3, b4⟩
              all_goals
                simp [url.authority, url.has_host, url.has_user_info, url.has_port,
                  url.host, url.port, url.user_info, spec_authority, string_view.is_empty,
                  string_view.null, url.view_begin, url.view_end, url.ptr_distance,
                  Option.filter, *]
  · intro hnone
    simp only at hnone
    subst hnone
    simp [url.authority, url.has_host, url.has_authority]

/-- C19 at concrete inputs: the authority of "http://user@host:80/p" is the range
`[7, 19)`, "user@host:80"; that of "http://host:/p" is `[7, 12)`, "host:". -/
theorem authority_eq_spec_witness :
    (url.from_string (spec_services fun _ => true) (ascii "http://user@host:80/p")).authority
      = ⟨some 7, 12⟩ ∧
    (url.from_string (spec_services fun _ => true) (ascii "http://host:/p")).authority
      = ⟨some 7, 5⟩ :=
  ⟨(authority_eq_spec
      (url.from_string (spec_services fun _ => true) (ascii "http://user@host:80/p"))
      (by intro p hp; cases hp; decide) (by intro p hp; cases hp; decide)
      (by intro p hp; cases hp; decide)).1.trans (by decide),
   (authority_eq_spec
      (url.from_string (spec_services fun _ => true) (ascii "http://host:/p"))
      (by intro p hp; cases hp) (by intro p hp; cases hp; decide)
      (by intro p hp; cases hp; decide)).1.trans (by decide)⟩

end whatwg
end network

namespace skyr
namespace utf8

open details

theorem mask8_of_lt (c : Nat) (h : c < 0x100) : mask8 c = c := by
  unfold mask8
  rw [Nat.and_comm]
  have := Nat.and_pow_two_sub_one_eq_mod c 8
  simp only [Nat.reducePow, Nat.add_one_sub_one] at this
  rw [this]
  omega

theorem store_at_end (mem : List Nat) (v : Nat) : store mem mem.length v = mem ++ [v] := by
  simp [store]

theorem next_ascii (pre suf : List Nat) (c last : Nat) (hc : c < 128)
    (hl : pre.length ≠ last) :
    next (pre ++ c :: suf) pre.length last = (.value c, pre.length + 1) := by
  have hd : deref (pre ++ c :: suf) pre.length = c := by
    unfold deref
    rw [List.getD_eq_getElem?_getD, List.getElem?_append_right (le_refl _)]
    simp
  have hm : mask8 c = c := mask8_of_lt c (by omega)
  have hs : sequence_length (pre ++ c :: suf) pre.length = 1 := by
    simp [sequence_length, hd, hm, hc]
  refine (validate_next_value_iff _ _ _ _ _).mpr ⟨hl, ?_, pre.length, rfl, ?_⟩
  · rw [is_code_point_valid_iff]
    omega
  · simp only [hs, if_true]
    exact (get_sequence_1_value_iff _ _ _ _ _).mpr ⟨hl, rfl, by rw [hd, hm]⟩

theorem utf8to32_loop_ascii :
    ∀ (suf pre mem : List Nat) (fuel : Nat), (∀ c ∈ suf, c < 128) → suf.length + 1 ≤ fuel →
      utf8to32_loop (pre ++ suf) (pre.length + suf.length) fuel pre.length mem mem.length
        = some (.value (mem.length + suf.length), mem ++ suf) := by
  intro suf
  induction suf with
  | nil =>
    intro pre mem fuel _ hfuel
    obtain ⟨f, rfl⟩ : ∃ f, fuel = f + 1 := ⟨fuel - 1, by omega⟩
    simp [utf8to32_loop]
  | cons c suf ih =>
    intro pre mem fuel hascii hfuel
    obtain ⟨f, rfl⟩ : ∃ f, fuel = f + 1 := ⟨fuel - 1, by omega⟩
    have hc : c < 128 := hascii c (by simp)
    have hL : pre.length + (c :: suf).length = pre.length + 1 + suf.length := by
      simp only [List.length_cons]; omega
    have hne : pre.length ≠ pre.length + 1 + suf.length := by omega
    have hn := next_ascii pre suf c (pre.length + 1 + suf.length) hc hne
    have hrec := ih (pre ++ [c]) (mem ++ [c]) f
      (fun x hx => hascii x (List.mem_cons_of_mem _ hx))
      (by simp only [List.length_cons] at hfuel; omega)
    simp only [List.append_assoc, List.singleton_append, List.length_append,
      List.length_singleton] at hrec
    rw [hL]
    simp only [utf8to32_loop, hne, if_false, hn, store_at_end]
    rw [hrec]
    simp only [List.length_cons, Option.some.injEq, Prod.mk.injEq, expected.value.injEq,
      and_true]
    omega

theorem utf8to16_loop_ascii :
    ∀ (suf pre mem : List Nat) (fuel : Nat), (∀ c ∈ suf, c < 128) → suf.length + 1 ≤ fuel →
      utf8to16_loop (pre ++ suf) (pre.length + suf.length) fuel pre.length mem mem.length
        = some (.value (mem.length + suf.length), mem ++ suf) := by
  intro suf
  induction suf with
  | nil =>
    intro pre mem fuel _ hfuel
    obtain ⟨f, rfl⟩ : ∃ f, fuel = f + 1 := ⟨fuel - 1, by omega⟩
    simp [utf8to16_loop]
  | cons c suf ih =>
    intro pre mem fuel hascii hfuel
    obtain ⟨f, rfl⟩ : ∃ f, fuel = f + 1 := ⟨fuel - 1, by omega⟩
    have hc : c < 128 := hascii c (by simp)
    have hL : pre.length + (c :: suf).length = pre.length + 1 + suf.length := by
      simp only [List.length_cons]; omega
    have hne : pre.length ≠ pre.length + 1 + suf.length := by omega
    have hn := next_ascii pre suf c (pre.length + 1 + suf.length) hc hne
    have hrec := ih (pre ++ [c]) (mem ++ [c]) f
      (fun x hx => hascii x (List.mem_cons_of_mem _ hx))
      (by simp only [List.length_cons] at hfuel; omega)
    simp only [List.append_assoc, List.singleton_append, List.length_append,
      List.length_singleton] at hrec
    have hsmall : ¬ c > 0xffff := by omega
    have hmod : c % 2 ^ 16 = c := by omega
    rw [hL]
    simp only [utf8to16_loop, hne, if_false, hn, hsmall, hmod, store_at_end]
    rw [hrec]
    simp only [List.length_cons, Option.some.injEq, Prod.mk.injEq, expected.value.injEq,
      and_true]
    omega

end utf8
end skyr

namespace network
namespace whatwg

open detail

theorem normalize_body_flag (env : services) (u : url) :
    (url.normalize_body env u).1 =
      (env.parse
        (env.decode_encoded_unreserved_chars (env.percent_encoded_to_upper
          (match (env.advance_parts u.url_ {} u.url_parts_).host with
            | some p =>
              transform_range tolower
                (match (env.advance_parts u.url_ {} u.url_parts_).scheme with
                  | some q => transform_range tolower u.url_ q.first q.last
                  | none => u.url_) p.first p.last
            | none =>
              match (env.advance_parts u.url_ {} u.url_parts_).scheme with
              | some q => transform_range tolower u.url_ q.first q.last
              | none => u.url_)))
        (env.advance_parts u.url_ {} u.url_parts_)).1 := by
  unfold url.normalize_body
  simp only [mutable_part]

theorem from_string_spec_services (grammar_ok : List Nat → Bool) (str : List Nat) :
    url.from_string (spec_services grammar_ok) str
      = url.from_string (spec_services fun _ => true) str := by
  unfold url.from_string url.init
  simp only [spec_services, spec_parse]
  split_ifs <;> rfl

/-- C17 fails on the code (collaborators as the spec describes them): when the parser
reports the buffer "http://a b/" invalid, the url stored from that string makes the
re-parse inside `normalize` invalid too, so `assert(is_valid)` fails and neither
`normalize` nor `compare(u, u)` returns. -/
theorem normalize_aborts_on_invalid (grammar_ok : List Nat → Bool)
    (h : grammar_ok (ascii "http://a b/") = false) :
    (url.init (spec_services grammar_ok) (ascii "http://a b/")).1 = false ∧
    (url.from_string (spec_services grammar_ok) (ascii "http://a b/")).url_
      = ascii "http://a b/" ∧
    url.normalize (spec_services grammar_ok)
      (url.from_string (spec_services grammar_ok) (ascii "http://a b/")) = none ∧
    url.compare (spec_services grammar_ok)
      (url.from_string (spec_services grammar_ok) (ascii "http://a b/"))
      (url.from_string (spec_services grammar_ok) (ascii "http://a b/")) = none := by
  rw [from_string_spec_services grammar_ok]
  have hbuf : (url.from_string (spec_services fun _ => true) (ascii "http://a b/")).url_
      = ascii "http://a b/" := by decide
  have htrim : spec_trim_copy (ascii "http://a b/") = ascii "http://a b/" := by decide
  have hflag : (url.normalize_body (spec_services grammar_ok)
      (url.from_string (spec_services fun _ => true) (ascii "http://a b/"))).1 = false := by
    rw [normalize_body_flag]
    simp only [spec_services, spec_parse]
    refine (congrArg grammar_ok ?_).trans h
    decide
  have hinit : (url.init (spec_services grammar_ok) (ascii "http://a b/")).1 = false := by
    simp only [url.init, spec_services, spec_parse, htrim, h]
    decide
  have hnorm : url.normalize (spec_services grammar_ok)
      (url.from_string (spec_services fun _ => true) (ascii "http://a b/")) = none := by
    simp [url.normalize, hflag]
  refine ⟨hinit, hbuf, hnorm, ?_⟩
  have hne : (url.from_string (spec_services fun _ => true) (ascii "http://a b/")).empty
      = false := by decide
  simp [url.compare, hne, hnorm]

/-- C17 at a concrete parser: one that rejects every buffer containing a space. -/
theorem normalize_aborts_on_invalid_witness :
    url.normalize (spec_services fun buf => !buf.contains 32)
      (url.from_string (spec_services fun buf => !buf.contains 32) (ascii "http://a b/"))
      = none :=
  (normalize_aborts_on_invalid (fun buf => !buf.contains 32) (by decide)).2.2.1

/-- C18 fails on the code: `operator==` on two non-exhausted iterators compares the
addresses of the iterator objects, so a non-exhausted iterator and its copy (same query
span, same key and value views, another object) compare unequal. -/
theorem query_iterator_copy_not_equal :
    (∀ a b : query_iterator, a.query_.isSome = true ∧ b.query_.isSome = true →
      a.eq b = (a.addr == b.addr)) ∧
    (∃ a, (url.mk (ascii "h?a=1") { query := some ⟨2, 5⟩ }).query_begin 100 = some a ∧
      a.query_.isSome = true ∧
      (query_iterator.copy 200 a).query_ = a.query_ ∧
      (query_iterator.copy 200 a).kvp_ = a.kvp_ ∧
      a.eq (query_iterator.copy 200 a) = false ∧
      a.eq a = true) := by
  constructor
  · rintro a b ⟨ha, hb⟩
    obtain ⟨qa, hqa⟩ := Option.isSome_iff_exists.mp ha
    obtain ⟨qb, hqb⟩ := Option.isSome_iff_exists.mp hb
    simp [query_iterator.eq, hqa, hqb]
  · exact ⟨⟨100, some ⟨2, 5⟩, (⟨some 2, 1⟩, ⟨some 4, 1⟩)⟩, by decide, by decide, by decide,
      by decide, by decide, by decide⟩

/-- C20 as stated fails on the code: the buffer C3 A9 is valid UTF-8 for U+00E9, which
`utf8to32` and `utf8to16` decode to the single unit E9, while `u32string()` and
`u16string()` return two units, one per byte (C3 A9 when `char` is unsigned, the
sign-extended values when it is signed). -/
theorem wide_strings_not_transcoded :
    skyr.utf8.is_valid [0xC3, 0xA9] 0 2 = some true ∧
    skyr.utf8.utf8to32 [0xC3, 0xA9] 0 2 [] 0 = some (.value 1, [0xE9]) ∧
    skyr.utf8.utf8to16 [0xC3, 0xA9] 0 2 [] 0 = some (.value 1, [0xE9]) ∧
    (url.mk [0xC3, 0xA9] { path := some ⟨0, 2⟩ }).u32string false = [0xC3, 0xA9] ∧
    (url.mk [0xC3, 0xA9] { path := some ⟨0, 2⟩ }).u32string true
      = [0xFFFFFFC3, 0xFFFFFFA9] ∧
    (url.mk [0xC3, 0xA9] { path := some ⟨0, 2⟩ }).u16string false = [0xC3, 0xA9] ∧
    (url.mk [0xC3, 0xA9] { path := some ⟨0, 2⟩ }).u16string true = [0xFFC3, 0xFFA9] := by
  decide

/-- C20 as amended: `u32string()` and `u16string()` are the buffer's bytes converted one
by one to the wide character type; when every byte of the buffer is ASCII (below 0x80)
they equal the sequences `utf8to32` and `utf8to16` write for the buffer. -/
theorem wide_strings_widen_bytes (char_signed : Bool) (u : url) :
    u.u32string char_signed = u.url_.map (url.char_to_wide char_signed 32) ∧
    u.u16string char_signed = u.url_.map (url.char_to_wide char_signed 16) ∧
    ((∀ c ∈ u.url_, c < 128) →
      skyr.utf8.utf8to32 u.url_ 0 u.url_.length [] 0
        = some (.value u.url_.length, u.u32string char_signed) ∧
      skyr.utf8.utf8to16 u.url_ 0 u.url_.length [] 0
        = some (.value u.url_.length, u.u16string char_signed)) := by
  refine ⟨rfl, rfl, ?_⟩
  intro hascii
  have hwide : ∀ bits, u.url_.map (url.char_to_wide char_signed bits) = u.url_ := by
    intro bits
    have hid : u.url_.map (url.char_to_wide char_signed bits) = u.url_.map id := by
      apply List.map_congr_left
      intro c hc
      have := hascii c hc
      have hn : ¬ 128 ≤ c := by omega
      simp [url.char_to_wide, hn]
    rw [hid, List.map_id]
  have h32 := skyr.utf8.utf8to32_loop_ascii u.url_ [] [] (u.url_.length + 1) hascii (le_refl _)
  have h16 := skyr.utf8.utf8to16_loop_ascii u.url_ [] [] (u.url_.length + 1) hascii (le_refl _)
  simp only [List.nil_append, List.length_nil, Nat.zero_add] at h32 h16
  constructor
  · simp only [skyr.utf8.utf8to32, url.u32string, hwide, Nat.sub_zero]
    exact h32
  · simp only [skyr.utf8.utf8to16, url.u16string, hwide, Nat.sub_zero]
    exact h16

/-- C20 as amended, at the ASCII buffer "http://a/". -/
theorem wide_strings_widen_bytes_witness :
    skyr.utf8.utf8to32 (ascii "http://a/") 0 9 [] 0
        = some (.value 9, (url.mk (ascii "http://a/") {}).u32string true) ∧
      skyr.utf8.utf8to16 (ascii "http://a/") 0 9 [] 0
        = some (.value 9, (url.mk (ascii "http://a/") {}).u16string true) :=
  (wide_strings_widen_bytes true (url.mk (ascii "http://a/") {})).2.2 (by decide)

end whatwg
end network

namespace network
namespace whatwg

open detail

/-- C21: when `advance_parts` hands back each span of the copied url at the same offsets,
the copy constructor preserves every component: the copy has the same buffer and the same
Component Set (so absent stays absent and present-but-empty stays present-but-empty),
every `has_X()` agrees and every `X()` denotes the same text, for scheme, user-info,
host, port, path, query and fragment. -/
theorem copy_preserves_components (env : services) (u : url)
    (hadv : env.advance_parts u.url_ {} u.url_parts_ = u.url_parts_) :
    (u.copy env).url_ = u.url_ ∧
    (u.copy env).url_parts_ = u.url_parts_ ∧
    ((u.copy env).has_scheme = u.has_scheme ∧
      (u.copy env).scheme.text (u.copy env).url_ = u.scheme.text u.url_) ∧
    ((u.copy env).has_user_info = u.has_user_info ∧
      (u.copy env).user_info.text (u.copy env).url_ = u.user_info.text u.url_) ∧
    ((u.copy env).has_host = u.has_host ∧
      (u.copy env).host.text (u.copy env).url_ = u.host.text u.url_) ∧
    ((u.copy env).has_port = u.has_port ∧
      (u.copy env).port.text (u.copy env).url_ = u.port.text u.url_) ∧
    ((u.copy env).has_path = u.has_path ∧
      (u.copy env).path.text (u.copy env).url_ = u.path.text u.url_) ∧
    ((u.copy env).has_query = u.has_query ∧
      (u.copy env).query.text (u.copy env).url_ = u.query.text u.url_) ∧
    ((u.copy env).has_fragment = u.has_fragment ∧
      (u.copy env).fragment.text (u.copy env).url_ = u.fragment.text u.url_) := by
  have hcopy : u.copy env = u := by
    obtain ⟨buf, parts⟩ := u
    simp only [url.copy] at hadv ⊢
    rw [hadv]
  rw [hcopy]
  exact ⟨rfl, rfl, ⟨rfl, rfl⟩, ⟨rfl, rfl⟩, ⟨rfl, rfl⟩, ⟨rfl, rfl⟩, ⟨rfl, rfl⟩, ⟨rfl, rfl⟩,
    ⟨rfl, rfl⟩⟩

/-- C21 at a concrete input, with `advance_parts` as the spec describes it: in the copy
of "http://host#" the fragment is present and empty, the query is absent and the host
reads "host". -/
theorem copy_preserves_components_witness :
    ((url.from_string (spec_services fun _ => true) (ascii "http://host#")).copy
        (spec_services fun _ => true)).has_fragment = true ∧
    (((url.from_string (spec_services fun _ => true) (ascii "http://host#")).copy
        (spec_services fun _ => true)).fragment.text (ascii "http://host#")) = [] ∧
    ((url.from_string (spec_services fun _ => true) (ascii "http://host#")).copy
        (spec_services fun _ => true)).has_query = false ∧
    (((url.from_string (spec_services fun _ => true) (ascii "http://host#")).copy
        (spec_services fun _ => true)).host.text (ascii "http://host#")) = ascii "host" :=
  have h := copy_preserves_components (spec_services fun _ => true)
    (url.from_string (spec_services fun _ => true) (ascii "http://host#")) rfl
  ⟨h.2.2.2.2.2.2.2.2.1.trans (by decide), by decide,
   h.2.2.2.2.2.2.2.1.1.trans (by decide), by decide⟩

end whatwg
end network

namespace skyr
namespace utf8

open details

theorem lead2_bits : ∀ x, x < 32 →
    ¬ (0xC0 + x < 0x80) ∧ (0xC0 + x) >>> 5 = 0x6 ∧ ((0xC0 + x) <<< 6) &&& 0x7ff = x * 64 := by
  decide

theorem lead3_bits : ∀ x, x < 16 →
    ¬ (0xE0 + x < 0x80) ∧ ¬ ((0xE0 + x) >>> 5 = 0x6) ∧ (0xE0 + x) >>> 4 = 0xe ∧
      ((0xE0 + x) <<< 12) &&& 0xffff = x * 4096 := by
  decide

theorem lead4_bits : ∀ x, x < 8 →
    ¬ (0xF0 + x < 0x80) ∧ ¬ ((0xF0 + x) >>> 5 = 0x6) ∧ ¬ ((0xF0 + x) >>> 4 = 0xe) ∧
      (0xF0 + x) >>> 3 = 0x1e ∧ ((0xF0 + x) <<< 18) &&& 0x1fffff = x * 262144 := by
  decide

theorem trail_bits : ∀ y, y < 64 →
    (0x80 + y) >>> 6 = 0x2 ∧ (0x80 + y) &&& 0x3f = y ∧
      ((0x80 + y) <<< 6) &&& 0xfff = y * 64 ∧ ((0x80 + y) <<< 12) &&& 0x3ffff = y * 4096 := by
  decide

theorem is_trail_of_trail_octet (y : Nat) (hy : y < 64) : is_trail (0x80 + y) = true := by
  have hm := mask8_of_lt (0x80 + y) (by omega)
  simp [is_trail, hm, (trail_bits y hy).1]

theorem sequence_length_of_octet (buf : List Nat) (it b : Nat) (hb : deref buf it = b)
    (hlt : b < 0x100) :
    sequence_length buf it =
      if b < 0x80 then 1 else if b >>> 5 = 0x6 then 2 else if b >>> 4 = 0xe then 3
      else if b >>> 3 = 0x1e then 4 else 0 := by
  simp only [sequence_length, hb, mask8_of_lt b hlt]

theorem deref_store_self (mem : List Nat) (r v : Nat) : deref (store mem r v) r = v :=
  store_getD_self mem r v

theorem deref_store_other (mem : List Nat) (r v i : Nat) (h : i ≠ r) :
    deref (store mem r v) i = deref mem i :=
  store_getD_other mem r v i h

/-- C22: for every code point `append` accepts, `next` applied to exactly the bytes
`append` wrote (the output memory from the cursor `append` was given up to the cursor it
returned) succeeds, returns that code point, and leaves the cursor at the end of those
bytes. -/
theorem next_append_round_trip (cp : Nat) (mem : List Nat) (result : Nat)
    (hv : is_code_point_valid cp = true) :
    ∃ n mem', 1 ≤ n ∧ n ≤ 4 ∧
      append cp mem result = (.value (result + n), mem') ∧
      next mem' result (result + n) = (.value cp, result + n) := by
  have hmax : cp ≤ 0x10FFFF := ((is_code_point_valid_iff cp).mp hv).1
  obtain ⟨f1, f2, f3, f4⟩ := append_bytes_written cp mem result hv
  by_cases h1 : cp < 0x80
  · refine ⟨1, _, by omega, by omega, f1 h1, ?_⟩
    have hd : deref (store mem result cp) result = cp := deref_store_self _ _ _
    have hs : sequence_length (store mem result cp) result = 1 := by
      rw [sequence_length_of_octet _ _ cp hd (by omega)]
      simp [h1]
    refine (validate_next_value_iff _ _ _ _ _).mpr ⟨by omega, hv, result, rfl, ?_⟩
    simp only [hs, if_true]
    exact (get_sequence_1_value_iff _ _ _ _ _).mpr
      ⟨by omega, rfl, by rw [hd, mask8_of_lt cp (by omega)]⟩
  · by_cases h2 : cp < 0x800
    · obtain ⟨hx, happ⟩ := f2 (by omega) h2
      have hy : cp % 64 < 64 := Nat.mod_lt _ (by decide)
      refine ⟨2, _, by omega, by omega, happ, ?_⟩
      have hd0 : deref (store (store mem result (0xC0 + cp / 64)) (result + 1)
          (0x80 + cp % 64)) result = 0xC0 + cp / 64 := by
        rw [deref_store_other _ _ _ _ (by omega), deref_store_self]
      have hd1 : deref (store (store mem result (0xC0 + cp / 64)) (result + 1)
          (0x80 + cp % 64)) (result + 1) = 0x80 + cp % 64 := deref_store_self _ _ _
      obtain ⟨l1, l2, l3⟩ := lead2_bits (cp / 64) hx
      obtain ⟨_, t2, _, _⟩ := trail_bits (cp % 64) hy
      have hs : sequence_length (store (store mem result (0xC0 + cp / 64)) (result + 1)
          (0x80 + cp % 64)) result = 2 := by
        rw [sequence_length_of_octet _ _ _ hd0 (by omega)]
        simp only [l1, l2, if_false, if_true]
      refine (validate_next_value_iff _ _ _ _ _).mpr
        ⟨by omega, hv, result + 1, by omega, ?_⟩
      simp only [hs, OfNat.ofNat_ne_one, if_false, if_true]
      refine (get_sequence_2_value_iff _ _ _ _ _).mpr
        ⟨by omega, by omega, ?_, rfl, ?_⟩
      · rw [hd1]; exact is_trail_of_trail_octet _ hy
      · rw [hd0, hd1, mask8_of_lt _ (by omega), l3, t2]
        omega
    · by_cases h3 : cp < 0x10000
      · obtain ⟨hx, happ⟩ := f3 (by omega) h3
        have hy1 : cp / 64 % 64 < 64 := Nat.mod_lt _ (by decide)
        have hy2 : cp % 64 < 64 := Nat.mod_lt _ (by decide)
        refine ⟨3, _, by omega, by omega, happ, ?_⟩
        have hd0 : deref (store (store (store mem result (0xE0 + cp / 4096))
            (result + 1) (0x80 + cp / 64 % 64)) (result + 2) (0x80 + cp % 64)) result
            = 0xE0 + cp / 4096 := by
          rw [deref_store_other _ _ _ _ (by omega), deref_store_other _ _ _ _ (by omega),
            deref_store_self]
        have hd1 : deref (store (store (store mem result (0xE0 + cp / 4096))
            (result + 1) (0x80 + cp / 64 % 64)) (result + 2) (0x80 + cp % 64)) (result + 1)
            = 0x80 + cp / 64 % 64 := by
          rw [deref_store_other _ _ _ _ (by omega), deref_store_self]
        have hd2 : deref (store (store (store mem result (0xE0 + cp / 4096))
            (result + 1) (0x80 + cp / 64 % 64)) (result + 2) (0x80 + cp % 64)) (result + 2)
            = 0x80 + cp % 64 := deref_store_self _ _ _
        obtain ⟨l1, l2, l3, l4⟩ := lead3_bits (cp / 4096) hx
        obtain ⟨_, _, u3, _⟩ := trail_bits (cp / 64 % 64) hy1
        obtain ⟨_, t2, _, _⟩ := trail_bits (cp % 64) hy2
        have hs : sequence_length (store (store (store mem result (0xE0 + cp / 4096))
            (result + 1) (0x80 + cp / 64 % 64)) (result + 2) (0x80 + cp % 64)) result = 3 := by
          rw [sequence_length_of_octet _ _ _ hd0 (by omega)]
          simp only [l1, l2, l3, if_false, if_true]
        have e1 : ¬ (3 : Nat) = 1 := by decide
        have e2 : ¬ (3 : Nat) = 2 := by decide
        refine (validate_next_value_iff _ _ _ _ _).mpr
          ⟨by omega, hv, result + 2, by omega, ?_⟩
        simp only [hs, e1, e2, if_false, if_true]
        refine (get_sequence_3_value_iff _ _ _ _ _).mpr
          ⟨by omega, by omega, ?_, by omega, ?_, rfl, ?_⟩
        · rw [hd1]; exact is_trail_of_trail_octet _ hy1
        · rw [hd2]; exact is_trail_of_trail_octet _ hy2
        · rw [hd0, hd1, hd2, mask8_of_lt (0xE0 + cp / 4096) (by omega),
            mask8_of_lt (0x80 + cp / 64 % 64) (by omega), l4, u3, t2]
          omega
      · obtain ⟨hx, happ⟩ := f4 (by omega)
        have hy1 : cp / 4096 % 64 < 64 := Nat.mod_lt _ (by decide)
        have hy2 : cp / 64 % 64 < 64 := Nat.mod_lt _ (by decide)
        have hy3 : cp % 64 < 64 := Nat.mod_lt _ (by decide)
        refine ⟨4, _, by omega, by omega, happ, ?_⟩
        have hd0 : deref (store (store (store (store mem result (0xF0 + cp / 262144))
            (result + 1) (0x80 + cp / 4096 % 64)) (result + 2) (0x80 + cp / 64 % 64))
            (result + 3) (0x80 + cp % 64)) result = 0xF0 + cp / 262144 := by
          rw [deref_store_other _ _ _ _ (by omega), deref_store_other _ _ _ _ (by omega),
            deref_store_other _ _ _ _ (by omega), deref_store_self]
        have hd1 : deref (store (store (store (store mem result (0xF0 + cp / 262144))
            (result + 1) (0x80 + cp / 4096 % 64)) (result + 2) (0x80 + cp / 64 % 64))
            (result + 3) (0x80 + cp % 64)) (result + 1) = 0x80 + cp / 4096 % 64 := by
          rw [deref_store_other _ _ _ _ (by omega), deref_store_other _ _ _ _ (by omega),
            deref_store_self]
        have hd2 : deref (store (store (store (store mem result (0xF0 + cp / 262144))
            (result + 1) (0x80 + cp / 4096 % 64)) (result + 2) (0x80 + cp / 64 % 64))
            (result + 3) (0x80 + cp % 64)) (result + 2) = 0x80 + cp / 64 % 64 := by
          rw [deref_store_other _ _ _ _ (by omega), deref_store_self]
        have hd3 : deref (store (store (store (store mem result (0xF0 + cp / 262144))
            (result + 1) (0x80 + cp / 4096 % 64)) (result + 2) (0x80 + cp / 64 % 64))
            (result + 3) (0x80 + cp % 64)) (result + 3) = 0x80 + cp % 64 :=
          deref_store_self _ _ _
        obtain ⟨l1, l2, l3, l4, l5⟩ := lead4_bits (cp / 262144) hx
        obtain ⟨_, _, _, v4⟩ := trail_bits (cp / 4096 % 64) hy1
        obtain ⟨_, _, u3, _⟩ := trail_bits (cp / 64 % 64) hy2
        obtain ⟨_, t2, _, _⟩ := trail_bits (cp % 64) hy3
        have hs : sequence_length (store (store (store (store mem result (0xF0 + cp / 262144))
            (result + 1) (0x80 + cp / 4096 % 64)) (result + 2) (0x80 + cp / 64 % 64))
            (result + 3) (0x80 + cp % 64)) result = 4 := by
          rw [sequence_length_of_octet _ _ _ hd0 (by omega)]
          simp only [l1, l2, l3, l4, if_false, if_true]
        have e1 : ¬ (4 : Nat) = 1 := by decide
        have e2 : ¬ (4 : Nat) = 2 := by decide
        have e3 : ¬ (4 : Nat) = 3 := by decide
        refine (validate_next_value_iff _ _ _ _ _).mpr
          ⟨by omega, hv, result + 3, by omega, ?_⟩
        simp only [hs, e1, e2, e3, if_false, if_true]
        refine (get_sequence_4_value_iff _ _ _ _ _).mpr
          ⟨by omega, by omega, ?_, by omega, ?_, by omega, ?_, rfl, ?_⟩
        · rw [hd1]; exact is_trail_of_trail_octet _ hy1
        · rw [hd2]; exact is_trail_of_trail_octet _ hy2
        · rw [hd3]; exact is_trail_of_trail_octet _ hy3
        · rw [hd0, hd1, hd2, hd3, mask8_of_lt (0xF0 + cp / 262144) (by omega),
            mask8_of_lt (0x80 + cp / 4096 % 64) (by omega),
            mask8_of_lt (0x80 + cp / 64 % 64) (by omega), l5, v4, u3, t2]
          omega

/-- C22 at a concrete input: U+20AC is written as E2 82 AC and read back. -/
theorem next_append_round_trip_witness :
    ∃ n mem', 1 ≤ n ∧ n ≤ 4 ∧
      append 0x20AC [] 0 = (.value (0 + n), mem') ∧
      next mem' 0 (0 + n) = (.value 0x20AC, 0 + n) :=
  next_append_round_trip 0x20AC [] 0 (by decide)

theorem validate_next_value_trails (buf : List Nat) (it last cp it' : Nat)
    (h : validate_next buf it last = (.value cp, it')) :
    ∀ j, it < j → j < it' → is_trail (deref buf j) = true := by
  obtain ⟨hl, hv, it2, rfl, hd⟩ := (validate_next_value_iff buf it last cp it').mp h
  intro j hj1 hj2
  rcases sequence_length_cases buf it with hL | hL | hL | hL | hL
  · simp [hL] at hd
  · simp only [hL, if_true] at hd
    obtain ⟨h0, rfl, hcp⟩ := (get_sequence_1_value_iff buf it last cp it2).mp hd
    omega
  · simp only [hL, if_true, OfNat.ofNat_ne_one, if_false] at hd
    obtain ⟨h0, h1, t1, rfl, hcp⟩ := (get_sequence_2_value_iff buf it last cp it2).mp hd
    have : j = it + 1 := by omega
    subst this
    exact t1
  · have e1 : ¬ (3 : Nat) = 1 := by decide
    have e2 : ¬ (3 : Nat) = 2 := by decide
    simp only [hL, if_true, e1, e2, if_false] at hd
    obtain ⟨h0, h1, t1, h2, t2, rfl, hcp⟩ :=
      (get_sequence_3_value_iff buf it last cp it2).mp hd
    have : j = it + 1 ∨ j = it + 2 := by omega
    rcases this with rfl | rfl
    · exact t1
    · exact t2
  · have e1 : ¬ (4 : Nat) = 1 := by decide
    have e2 : ¬ (4 : Nat) = 2 := by decide
    have e3 : ¬ (4 : Nat) = 3 := by decide
    simp only [hL, if_true, e1, e2, e3, if_false] at hd
    obtain ⟨h0, h1, t1, h2, t2, h3, t3, rfl, hcp⟩ :=
      (get_sequence_4_value_iff buf it last cp it2).mp hd
    have : j = it + 1 ∨ j = it + 2 ∨ j = it + 3 := by omega
    rcases this with rfl | rfl | rfl
    · exact t1
    · exact t2
    · exact t3

theorem lead_octet_not_trail (buf : List Nat) (it : Nat) (h : 1 ≤ sequence_length buf it) :
    is_trail (deref buf it) = false := by
  unfold sequence_length at h
  simp only [Nat.shiftRight_eq_div_pow] at h
  simp only [is_trail, Nat.shiftRight_eq_div_pow, beq_eq_false_iff_ne, ne_eq]
  split_ifs at h <;> omega

theorem prior_loop_finds_lead (buf : List Nat) (first p : Nat) (hfp : first ≤ p)
    (hlead : is_trail (deref buf p) = false) :
    ∀ (k fuel : Nat), (∀ j, p < j → j ≤ p + k → is_trail (deref buf j) = true) →
      k + 1 ≤ fuel → prior_loop buf first fuel (p + k) = some (none, p) := by
  intro k
  induction k with
  | zero =>
    intro fuel _ hfuel
    obtain ⟨f, rfl⟩ : ∃ f, fuel = f + 1 := ⟨fuel - 1, by omega⟩
    simp [prior_loop, hlead]
  | succ k ih =>
    intro fuel htrail hfuel
    obtain ⟨f, rfl⟩ : ∃ f, fuel = f + 1 := ⟨fuel - 1, by omega⟩
    have ht := htrail (p + (k + 1)) (by omega) (le_refl _)
    have hne : p + (k + 1) ≠ first := by omega
    have hstep := ih f (fun j h1 h2 => htrail j h1 (by omega)) (by omega)
    simp only [prior_loop, ht, if_true, hne, if_false]
    rw [show p + (k + 1) - 1 = p + k by omega]
    exact hstep

/-- C24: for every buffer and positions `first ≤ p`, if `next` started at `p` with bound
`last` succeeds with code point `cp` and leaves the cursor at `q`, then `prior(q, first)`
succeeds, returns `cp` and leaves the cursor at `p`. -/
theorem prior_inverts_next (buf : List Nat) (first p last cp q : Nat) (hfp : first ≤ p)
    (h : next buf p last = (.value cp, q)) :
    prior buf q first = some (.value cp, p) := by
  obtain ⟨hL1, hL4, hq, _, hbound⟩ := validate_next_value_advance buf p last cp q h
  have htrail := validate_next_value_trails buf p last cp q h
  have hlead := lead_octet_not_trail buf p hL1
  have hne : q ≠ first := by omega
  have hloop := prior_loop_finds_lead buf first p hfp hlead (q - 1 - p) (q - first + 1)
    (fun j h1 h2 => htrail j h1 (by omega)) (by omega)
  rw [show p + (q - 1 - p) = q - 1 by omega] at hloop
  have hpeek : peek_next buf p q = .value cp := by
    unfold peek_next next
    rw [hbound q (le_refl _)]
  simp only [prior, hne, if_false, hloop, hpeek]

/-- C24 at a concrete input: after `next` reads E2 82 AC from position 1 of
41 E2 82 AC, `prior` from the end reads U+20AC back and returns to position 1. -/
theorem prior_inverts_next_witness :
    next [0x41, 0xE2, 0x82, 0xAC] 1 4 = (.value 0x20AC, 4) ∧
    prior [0x41, 0xE2, 0x82, 0xAC] 4 0 = some (.value 0x20AC, 1) :=
  ⟨by decide, prior_inverts_next [0x41, 0xE2, 0x82, 0xAC] 0 1 4 0x20AC 4 (by decide)
    (by decide)⟩

theorem store_pair_at_end (mem : List Nat) (a b : Nat) :
    store (store mem mem.length a) (mem.length + 1) b = mem ++ [a, b] := by
  rw [store_at_end]
  have := store_at_end (mem ++ [a]) b
  simp only [List.length_append, List.length_singleton, List.append_assoc,
    List.singleton_append] at this
  exact this

theorem surrogate_pair_of_code_point (cp : Nat) (h1 : 0xFFFF < cp) (h2 : cp ≤ 0x10FFFF) :
    spec_utf16_encodes cp
      [((cp >>> 10) + constants.lead_offset) % 2 ^ 16,
       ((cp &&& 0x3ff) + constants.trail_surrogate_min) % 2 ^ 16] := by
  have hoff : constants.lead_offset = 0xD7C0 := by decide
  have hmin : constants.trail_surrogate_min = 0xDC00 := rfl
  have hand : cp &&& 0x3ff = cp % 1024 := Nat.and_pow_two_sub_one_eq_mod cp 10
  right
  refine ⟨h1, _, _, rfl, ?_⟩
  rw [hoff, hmin, hand, Nat.shiftRight_eq_div_pow, Nat.shiftLeft_eq]
  omega

theorem single_unit_of_code_point (cp : Nat) (h1 : ¬ 0xFFFF < cp)
    (hv : is_code_point_valid cp = true) :
    spec_utf16_encodes cp [cp % 2 ^ 16] := by
  have := (is_code_point_valid_iff cp).mp hv
  have hm : cp % 2 ^ 16 = cp := by omega
  left
  rw [hm]
  refine ⟨by omega, rfl, ?_⟩
  omega

theorem utf8to16_loop_units (buf : List Nat) (last : Nat) :
    ∀ (fuel it : Nat) (m16 : List Nat) (r : Nat) (out m32 : List Nat),
      utf8to16_loop buf last fuel it m16 m16.length = some (.value r, out) →
      ∃ cps groups,
        utf8to32_loop buf last fuel it m32 m32.length
          = some (.value (m32.length + cps.length), m32 ++ cps) ∧
        out = m16 ++ groups.flatten ∧ r = out.length ∧
        List.Forall₂ spec_utf16_encodes cps groups := by
  intro fuel
  induction fuel with
  | zero => intro it m16 r out m32 h; simp [utf8to16_loop] at h
  | succ f ih =>
    intro it m16 r out m32 h
    by_cases hl : it = last
    · simp only [utf8to16_loop, hl, if_true, Option.some.injEq, Prod.mk.injEq,
        expected.value.injEq] at h
      obtain ⟨rfl, rfl⟩ := h
      exact ⟨[], [], by simp [utf8to32_loop, hl], by simp, rfl, List.Forall₂.nil⟩
    · rcases next_result buf it last with ⟨e, it1, hn⟩ | ⟨cp, it1, hn⟩
      · simp [utf8to16_loop, hl, hn] at h
      · have hv : is_code_point_valid cp = true :=
          ((validate_next_value_iff buf it last cp it1).mp hn).2.1
        have hmax := ((is_code_point_valid_iff cp).mp hv).1
        simp only [utf8to16_loop, hl, if_false, hn] at h
        by_cases hbig : cp > 0xffff
        · simp only [hbig, if_true, store_pair_at_end] at h
          have hlen : (m16 ++ [((cp >>> 10) + constants.lead_offset) % 2 ^ 16,
              ((cp &&& 0x3ff) + constants.trail_surrogate_min) % 2 ^ 16]).length
              = m16.length + 2 := by simp
          rw [← hlen] at h
          obtain ⟨cps, groups, h32, hout, hr, hall⟩ := ih it1 _ r out (m32 ++ [cp]) h
          refine ⟨cp :: cps, _ :: groups, ?_, ?_, hr, List.Forall₂.cons
            (surrogate_pair_of_code_point cp hbig hmax) hall⟩
          · simp only [utf8to32_loop, hl, if_false, hn, store_at_end]
            have hlen32 : (m32 ++ [cp]).length = m32.length + 1 := by simp
            rw [hlen32] at h32
            rw [h32]
            simp only [List.length_cons, List.append_assoc, List.singleton_append,
              Option.some.injEq, Prod.mk.injEq, expected.value.injEq, and_true]
            omega
          · rw [hout]
            simp
        · simp only [hbig, if_false, store_at_end] at h
          have hlen : (m16 ++ [cp % 2 ^ 16]).length = m16.length + 1 := by simp
          rw [← hlen] at h
          obtain ⟨cps, groups, h32, hout, hr, hall⟩ := ih it1 _ r out (m32 ++ [cp]) h
          refine ⟨cp :: cps, _ :: groups, ?_, ?_, hr, List.Forall₂.cons
            (single_unit_of_code_point cp hbig hv) hall⟩
          · simp only [utf8to32_loop, hl, if_false, hn, store_at_end]
            have hlen32 : (m32 ++ [cp]).length = m32.length + 1 := by simp
            rw [hlen32] at h32
            rw [h32]
            simp only [List.length_cons, List.append_assoc, List.singleton_append,
              Option.some.injEq, Prod.mk.injEq, expected.value.injEq, and_true]
            omega
          · rw [hout]
            simp

/-- C23: whenever `utf8to16` succeeds (writing from the start of an empty output), its
output is the concatenation, in order, of the UTF-16 units of the code points that
`utf8to32` decodes from the same input: one unit outside 0xD800..0xDFFF for a code point
of at most 0xFFFF, and otherwise a lead unit in 0xD800..0xDBFF followed by a trail unit
in 0xDC00..0xDFFF from which the code point is recovered; the returned cursor is the
number of units written. -/
theorem utf8to16_well_formed (buf : List Nat) (first last r : Nat) (out : List Nat)
    (h : utf8to16 buf first last [] 0 = some (.value r, out)) :
    ∃ cps groups,
      utf8to32 buf first last [] 0 = some (.value cps.length, cps) ∧
      out = groups.flatten ∧ r = out.length ∧
      List.Forall₂ spec_utf16_encodes cps groups := by
  obtain ⟨cps, groups, h32, hout, hr, hall⟩ :=
    utf8to16_loop_units buf last (last - first + 1) first [] r out [] h
  refine ⟨cps, groups, ?_, by simpa using hout, hr, hall⟩
  simpa [utf8to32] using h32

/-- C23 at a concrete input: 41 F0 9F 98 80 becomes the units 0041 D83D DE00. -/
theorem utf8to16_well_formed_witness :
    utf8to16 [0x41, 0xF0, 0x9F, 0x98, 0x80] 0 5 [] 0 = some (.value 3, [0x41, 0xD83D, 0xDE00]) ∧
    ∃ cps groups,
      utf8to32 [0x41, 0xF0, 0x9F, 0x98, 0x80] 0 5 [] 0 = some (.value cps.length, cps) ∧
      [0x41, 0xD83D, 0xDE00] = groups.flatten ∧ 3 = [0x41, 0xD83D, 0xDE00].length ∧
      List.Forall₂ spec_utf16_encodes cps groups :=
  ⟨by decide,
   utf8to16_well_formed [0x41, 0xF0, 0x9F, 0x98, 0x80] 0 5 3 [0x41, 0xD83D, 0xDE00]
    (by decide)⟩

theorem find_invalid_loop_total (buf : List Nat) (last : Nat) :
    ∀ (fuel it : Nat), it ≤ last → last - it + 1 ≤ fuel →
      ∃ r, find_invalid_loop buf last fuel it = some r := by
  intro fuel
  induction fuel with
  | zero => intro it _ h; omega
  | succ f ih =>
    intro it hle hfuel
    by_cases hl : it = last
    · exact ⟨it, by simp [find_invalid_loop, hl]⟩
    · rcases next_result buf it last with ⟨e, it1, hn⟩ | ⟨cp, it1, hn⟩
      · have hn' : validate_next buf it last = (.unexpected e, it1) := hn
        exact ⟨it1, by simp [find_invalid_loop, hl, hn']⟩
      · have hn' : validate_next buf it last = (.value cp, it1) := hn
        have hadv := validate_next_value_advance buf it last cp it1 hn'
        simp only [find_invalid_loop, hl, if_false, hn']
        exact ih it1 (hadv.2.2.2.1 hle) (by omega)

theorem distance_loop_total (buf : List Nat) (last : Nat) :
    ∀ (fuel it dist : Nat), it ≤ last → last - it + 1 ≤ fuel →
      ∃ r, distance_loop buf last fuel it dist = some r := by
  intro fuel
  induction fuel with
  | zero => intro it dist _ h; omega
  | succ f ih =>
    intro it dist hle hfuel
    by_cases hl : it = last
    · exact ⟨.value dist, by simp [distance_loop, hl]⟩
    · rcases next_result buf it last with ⟨e, it1, hn⟩ | ⟨cp, it1, hn⟩
      · exact ⟨.unexpected e, by simp [distance_loop, hl, hn]⟩
      · have hadv := validate_next_value_advance buf it last cp it1 hn
        simp only [distance_loop, hl, if_false, hn]
        exact ih it1 _ (hadv.2.2.2.1 hle) (by omega)

/-- C25: a successful `validate_next` (the decoder behind `next`) started within the
bound advances the cursor by exactly the sequence length of the lead byte, which is 1,
2, 3 or 4, and not past the bound; and on every input range `first ≤ last` the loops of
`find_invalid`, `is_valid`, `distance`, `utf8to32` and `utf8to16` return within
`last - first` decodes (their fuel `last - first + 1` allows that many iterations and the
final end test). -/
theorem decoding_loops_terminate :
    (∀ (buf : List Nat) (it last cp it' : Nat), it ≤ last →
      validate_next buf it last = (.value cp, it') →
        1 ≤ sequence_length buf it ∧ sequence_length buf it ≤ 4 ∧
        it' = it + sequence_length buf it ∧ it' ≤ last) ∧
    (∀ (buf : List Nat) (first last : Nat), first ≤ last →
      (∃ r, find_invalid_loop buf last (last - first + 1) first = some r) ∧
      (∃ r, find_invalid buf first last = some r) ∧
      (∃ b, is_valid buf first last = some b) ∧
      (∃ d, distance buf first last = some d) ∧
      (∀ (mem : List Nat) (result : Nat),
        (∃ x, utf8to32 buf first last mem result = some x) ∧
        (∃ x, utf8to16 buf first last mem result = some x))) := by
  constructor
  · intro buf it last cp it' hle h
    have hadv := validate_next_value_advance buf it last cp it' h
    exact ⟨hadv.1, hadv.2.1, hadv.2.2.1, hadv.2.2.2.1 hle⟩
  · intro buf first last hle
    obtain ⟨r, hr⟩ := find_invalid_loop_total buf last (last - first + 1) first hle (le_refl _)
    refine ⟨⟨r, hr⟩, ⟨r, hr⟩, ⟨decide (r = last), ?_⟩, ?_, ?_⟩
    · simp [is_valid, find_invalid, hr]
    · exact distance_loop_total buf last (last - first + 1) first 0 hle (le_refl _)
    · intro mem result
      exact ⟨utf8to32_loop_total buf last (last - first + 1) first mem result hle (le_refl _),
        utf8to16_loop_total buf last (last - first + 1) first mem result hle (le_refl _)⟩

/-- C25 at a concrete input: on 41 E2 82 AC the decoder advances by 1 and then by 3, and
`distance` returns 2. -/
theorem decoding_loops_terminate_witness :
    (1 ≤ sequence_length [0x41, 0xE2, 0x82, 0xAC] 1 ∧
      sequence_length [0x41, 0xE2, 0x82, 0xAC] 1 ≤ 4 ∧
      4 = 1 + sequence_length [0x41, 0xE2, 0x82, 0xAC] 1 ∧ 4 ≤ 4) ∧
    distance [0x41, 0xE2, 0x82, 0xAC] 0 4 = some (.value 2) ∧
    ∃ d, distance [0x41, 0xE2, 0x82, 0xAC] 0 4 = some d :=
  ⟨decoding_loops_terminate.1 [0x41, 0xE2, 0x82, 0xAC] 1 4 0x20AC 4 (by decide) (by decide),
   by decide,
   (decoding_loops_terminate.2 [0x41, 0xE2, 0x82, 0xAC] 0 4 (by decide)).2.2.2.1⟩

end utf8
end skyr
